import Mathlib

/-!
The Chat pane of slack-term (`components/chat.go`).

A shallow embedding of `Chat.Buffer` (wrapping of the message cells into lines and the
bottom-up rendering of those lines into the pane), of the message store operations and
of the scroll operations, followed by the properties proved about them.

Conventions of the embedding.

* Go's `int` is modelled by `Int`. Every counter of the embedded code is bounded by the
  number of cells, by the pane size or by the number of messages plus ten, far below
  `2 ^ 63`, so no arithmetic of the embedded code wraps around.
* The receiver `c *Chat` is passed and returned explicitly.
* A run-time panic (index out of range) is the value `none`.
* What the termui library contributes is either a field of the state (the result of
  `InnerBounds()`), an argument (the display width of a rune, the buffer that
  `List.Buffer()` returns, the entity decoder) or a definition documented as modelled.
-/

namespace SlackTerm

/-! ## Data model -/

/-- The type `termui.Attribute` (a colour). -/
abbrev Attribute := Nat

/-- The type `termui.Cell`: a rune with its foreground and background. -/
structure Cell where
  Ch : Char
  Fg : Attribute
  Bg : Attribute
deriving DecidableEq

/-- The method `Cell.Width()`: termui returns the display width of the rune of the cell,
which it takes from the runewidth library. That table is the argument `runeWidth`. -/
def Cell.Width (runeWidth : Char → Int) (cell : Cell) : Int :=
  runeWidth cell.Ch

/-- The type `image.Point`. -/
structure Point where
  X : Int
  Y : Int
deriving DecidableEq

/-- The type `image.Rectangle`. -/
structure Rectangle where
  Min : Point
  Max : Point
deriving DecidableEq

/-- The method `Rectangle.Dx()`. -/
def Rectangle.Dx (r : Rectangle) : Int :=
  r.Max.X - r.Min.X

/-- The method `Rectangle.Dy()`. -/
def Rectangle.Dy (r : Rectangle) : Int :=
  r.Max.Y - r.Min.Y

/-- The type `termui.Buffer`, reduced to its `CellMap`: the cell stored at a point, if
any. -/
structure Buffer where
  CellMap : Int → Int → Option Cell

/-- The buffer with no cell. -/
def Buffer.empty : Buffer :=
  ⟨fun _ _ => none⟩

/-- The method `Buffer.Set(x, y, cell)`: `CellMap[image.Pt(x, y)] = cell`. -/
def Buffer.Set (buf : Buffer) (x y : Int) (cell : Cell) : Buffer :=
  ⟨fun x1 y1 => if x1 = x ∧ y1 = y then some cell else buf.CellMap x1 y1⟩

/-- The fields of `termui.List` that `chat.go` reads or writes, and `Inner`, the
rectangle that `InnerBounds()` returns. -/
structure TermuiList where
  Items : List String
  ItemFgColor : Attribute
  ItemBgColor : Attribute
  BorderLabel : String
  Inner : Rectangle

/-- The type `Chat`. -/
structure Chat where
  List : TermuiList
  Offset : Int

/-- The local type `Line` of `Chat.Buffer`, a struct with the single field
`cells []termui.Cell`. -/
abbrev Line := List Cell

/-- The type `[]Line` of the variable `lines` of `Chat.Buffer`. -/
abbrev Lines := List Line

/-- The sum of `cell.Width()` over the cells of a line. -/
def lineWidth (runeWidth : Char → Int) (line : Line) : Int :=
  (line.map (Cell.Width runeWidth)).sum

/-! ## Library functions used by `Chat.Buffer` -/

/-- Go's `strings.Join`. -/
def Join : List String → String → String
  | [], _ => ""
  | [a], _ => a
  | a :: b :: rest, sep => a ++ sep ++ Join (b :: rest) sep

/-- Modelled from the spec: `termui.DefaultTxBuilder.Build` is a function of the termui
library and is not part of the sources. The spec (4.3) scans the joined messages as a
character stream, so the model gives one cell for each character of the text, in order,
each carrying the two colours passed in. -/
def Build (s : String) (fg bg : Attribute) : List Cell :=
  s.toList.map fun ch => ⟨ch, fg, bg⟩

/-! ## `Chat.Buffer` -/

/-- The wrapping loop of `Chat.Buffer` (chat.go 56-75) over the cells still to read, with
the loop state `lines`, `line`, `x`; the empty list is the exit of the loop, where the
current line is appended. -/
def wrapLoop (runeWidth : Char → Int) (dx : Int) :
    List Cell → List Line → Line → Int → List Line
  | [], lines, line, _ => lines ++ [line]
  | cell :: rest, lines, line, x =>
    if cell.Ch = '\n' then
      wrapLoop runeWidth dx rest (lines ++ [line]) [] 0
    else
      let state : List Line × Line × Int :=
        if x + cell.Width runeWidth > dx then (lines ++ [line], [], 0) else (lines, line, x)
      wrapLoop runeWidth dx rest state.1 (state.2.1 ++ [cell]) (state.2.2 + 1)

/-- The first part of `Chat.Buffer` (chat.go 39-75): the lines built from the items. -/
def Chat.lines (runeWidth : Char → Int) (c : Chat) : Lines :=
  let cells := Build (Join c.List.Items "\n") c.List.ItemFgColor c.List.ItemBgColor
  wrapLoop runeWidth c.List.Inner.Dx cells [] [] 0

/-- The blank cell written by the fill loops. -/
def Chat.blank (c : Chat) : Cell :=
  ⟨' ', c.List.ItemFgColor, c.List.ItemBgColor⟩

/-- The loop over the cells of one line (chat.go 93-96): sets each cell at `x` and moves
`x` by the width of the cell. Returns the final `x` and the buffer. -/
def setCells (runeWidth : Char → Int) (currentY : Int) : List Cell → Int → Buffer → Int × Buffer
  | [], x, buf => (x, buf)
  | cell :: rest, x, buf =>
    setCells runeWidth currentY rest (x + cell.Width runeWidth) (buf.Set x currentY cell)

/-- The fill loop `for x < Max.X` (chat.go 100-110 and 119-129). The first argument
bounds the number of iterations; `fillRow` passes `Max.X - x`, the exact trip count. -/
def fillLoop (maxX currentY : Int) (blank : Cell) : Nat → Int → Buffer → Buffer
  | 0, _, buf => buf
  | n + 1, x, buf =>
    if x < maxX then fillLoop maxX currentY blank n (x + 1) (buf.Set x currentY blank)
    else buf

/-- The fill loop run from `x` to its exit. -/
def fillRow (maxX currentY : Int) (blank : Cell) (x : Int) (buf : Buffer) : Buffer :=
  fillLoop maxX currentY blank (maxX - x).toNat x buf

/-- The body of the loop over the lines for one line (chat.go 92-110): the cells of the
line, then blanks up to the right edge. -/
def drawLine (runeWidth : Char → Int) (c : Chat) (line : Line) (currentY : Int)
    (buf : Buffer) : Buffer :=
  let r := setCells runeWidth currentY line c.List.Inner.Min.X buf
  fillRow c.List.Inner.Max.X currentY c.blank r.1 r.2

/-- The loop over the lines, bottom up (chat.go 87-112), with the loop state `i`,
`currentY` and the buffer. `lines[i]` out of range is the panic `none`. The first
argument bounds the number of iterations; `Chat.render` passes `i + 1`, which the loop
cannot exceed since `i` decreases down to `0`. Returns the final `currentY` and the
buffer. -/
def lineLoop (runeWidth : Char → Int) (c : Chat) (lines : List Line) :
    Nat → Int → Int → Buffer → Option (Int × Buffer)
  | 0, _, currentY, buf => some (currentY, buf)
  | n + 1, i, currentY, buf =>
    if i ≥ 0 then
      if currentY < c.List.Inner.Min.Y then some (currentY, buf)
      else
        match lines[i.toNat]? with
        | none => none
        | some line =>
          lineLoop runeWidth c lines n (i - 1) (currentY - 1)
            (drawLine runeWidth c line currentY buf)
    else some (currentY, buf)

/-- The loop that blanks the rows above the lines (chat.go 117-131). The first argument
bounds the number of iterations; `Chat.render` passes `currentY - Min.Y + 1`, the exact
trip count. -/
def blankLoop (c : Chat) : Nat → Int → Buffer → Buffer
  | 0, _, buf => buf
  | n + 1, currentY, buf =>
    if currentY ≥ c.List.Inner.Min.Y then
      blankLoop c n (currentY - 1)
        (fillRow c.List.Inner.Max.X currentY c.blank c.List.Inner.Min.X buf)
    else buf

/-- The second part of `Chat.Buffer` (chat.go 81-133): renders `lines` into `buf`, the
buffer that `c.List.Buffer()` returned. -/
def Chat.render (runeWidth : Char → Int) (c : Chat) (lines : Lines) (buf : Buffer) :
    Option Buffer :=
  let linesHeight : Int := lines.length
  let paneMinY := c.List.Inner.Min.Y
  let paneMaxY := c.List.Inner.Max.Y
  let currentY := paneMaxY - 1
  let i := (linesHeight - 1) - c.Offset
  match lineLoop runeWidth c lines (i + 1).toNat i currentY buf with
  | none => none
  | some (currentY, buf) => some (blankLoop c (currentY - paneMinY + 1).toNat currentY buf)

/-- The method `Chat.Buffer` (chat.go 38-134); `listBuffer` is the buffer that
`c.List.Buffer()` returns. -/
def Chat.Buffer (runeWidth : Char → Int) (c : Chat) (listBuffer : Buffer) : Option Buffer :=
  c.render runeWidth (c.lines runeWidth) listBuffer

/-! ## Message store and scrolling -/

/-- The method `Chat.AddMessage` (chat.go 169-171); `unescape` is Go's
`html.UnescapeString`. -/
def Chat.AddMessage (unescape : String → String) (c : Chat) (message : String) : Chat :=
  { c with List := { c.List with Items := c.List.Items ++ [unescape message] } }

/-- The method `Chat.ClearMessages` (chat.go 174-176). -/
def Chat.ClearMessages (c : Chat) : Chat :=
  { c with List := { c.List with Items := [] } }

/-- The method `Chat.ScrollUp` (chat.go 185-192). -/
def Chat.ScrollUp (c : Chat) : Chat :=
  let c : Chat := { c with Offset := c.Offset + 10 }
  if c.Offset > (c.List.Items.length : Int) - 1 then
    { c with Offset := (c.List.Items.length : Int) - 1 }
  else c

/-- The method `Chat.ScrollDown` (chat.go 201-208). -/
def Chat.ScrollDown (c : Chat) : Chat :=
  let c : Chat := { c with Offset := c.Offset - 10 }
  if c.Offset < 0 then { c with Offset := 0 } else c

/-- The state that `CreateChat` builds before it fetches messages (chat.go 23-29): the
list of `termui.NewList()`, which has no item, and `Offset` 0. The colours, the label
and the inner rectangle are those of the termui list. -/
def newChat (fg bg : Attribute) (label : String) (inner : Rectangle) : Chat :=
  { List := { Items := [], ItemFgColor := fg, ItemBgColor := bg, BorderLabel := label,
              Inner := inner },
    Offset := 0 }

/-! ## States and width tables used in the examples -/

/-- A display width table for the examples: 2 for the CJK unified ideographs
(U+4E00 to U+9FFF), which the runewidth library counts as wide, and 1 for every other
rune. -/
def cjkWidth (ch : Char) : Int :=
  if 0x4E00 ≤ ch.toNat ∧ ch.toNat ≤ 0x9FFF then 2 else 1

/-- The chat with the given items, inner rectangle and offset, white on black, without
label. -/
def chatOf (items : List String) (inner : Rectangle) (offset : Int) : Chat :=
  { List := { Items := items, ItemFgColor := 7, ItemBgColor := 0, BorderLabel := "",
              Inner := inner },
    Offset := offset }

/-! ## Predicates used to state the properties -/

/-- Row `y` of `buf` shows the line `l` in the pane of `c`: cell `j` of the line is stored
at the column `Min.X` plus the display widths of the cells before it, and every column
from the end of the line up to the right edge of the pane holds the blank cell. -/
def ShowsLine (runeWidth : Char → Int) (c : Chat) (buf : Buffer) (y : Int) (l : Line) :
    Prop :=
  (∀ (j : Nat) (cell : Cell), l[j]? = some cell →
    buf.CellMap (c.List.Inner.Min.X + lineWidth runeWidth (l.take j)) y = some cell) ∧
  (∀ x : Int, c.List.Inner.Min.X + lineWidth runeWidth l ≤ x → x < c.List.Inner.Max.X →
    buf.CellMap x y = some c.blank)

/-- Five one-glyph messages "0" to "4" in a pane 4 columns wide and 3 rows high, at
offset 0. -/
def fiveLineChat : Chat :=
  chatOf ["0", "1", "2", "3", "4"] ⟨⟨0, 0⟩, ⟨4, 3⟩⟩ 0

/-- Two messages "ab" and "cd" in a pane 4 columns wide and 5 rows high, at offset 0. -/
def twoLineChat : Chat :=
  chatOf ["ab", "cd"] ⟨⟨0, 0⟩, ⟨4, 5⟩⟩ 0

/-! ## Reachable states -/

/-- The effect of the layout on a chat: `SetWidth`, `SetX` and `SetY` (chat.go 142-154)
hand the new geometry to the termui list, whose `InnerBounds()` then returns another
rectangle. -/
def Chat.setInner (c : Chat) (inner : Rectangle) : Chat :=
  { c with List := { c.List with Inner := inner } }

/-- The states reachable from a freshly created chat by `AddMessage`, `ClearMessages`,
`ScrollUp` and `ScrollDown`, in any order, and by changes of the pane geometry. -/
inductive Reachable (unescape : String → String) (fg bg : Attribute) (label : String)
    (inner : Rectangle) : Chat → Prop
  | fresh : Reachable unescape fg bg label inner (newChat fg bg label inner)
  | addMessage (c : Chat) (message : String) :
      Reachable unescape fg bg label inner c →
      Reachable unescape fg bg label inner (c.AddMessage unescape message)
  | clearMessages (c : Chat) :
      Reachable unescape fg bg label inner c →
      Reachable unescape fg bg label inner c.ClearMessages
  | scrollUp (c : Chat) :
      Reachable unescape fg bg label inner c →
      Reachable unescape fg bg label inner c.ScrollUp
  | scrollDown (c : Chat) :
      Reachable unescape fg bg label inner c →
      Reachable unescape fg bg label inner c.ScrollDown
  | setInner (c : Chat) (r : Rectangle) :
      Reachable unescape fg bg label inner c →
      Reachable unescape fg bg label inner (c.setInner r)

/-- The states reachable as in `Reachable`, with `ScrollUp` taken only when the store
holds a message and `ClearMessages` taken only at offset 0. -/
inductive ReachableGuarded (unescape : String → String) (fg bg : Attribute) (label : String)
    (inner : Rectangle) : Chat → Prop
  | fresh : ReachableGuarded unescape fg bg label inner (newChat fg bg label inner)
  | addMessage (c : Chat) (message : String) :
      ReachableGuarded unescape fg bg label inner c →
      ReachableGuarded unescape fg bg label inner (c.AddMessage unescape message)
  | clearMessages (c : Chat) :
      ReachableGuarded unescape fg bg label inner c → c.Offset = 0 →
      ReachableGuarded unescape fg bg label inner c.ClearMessages
  | scrollUp (c : Chat) :
      ReachableGuarded unescape fg bg label inner c → c.List.Items ≠ [] →
      ReachableGuarded unescape fg bg label inner c.ScrollUp
  | scrollDown (c : Chat) :
      ReachableGuarded unescape fg bg label inner c →
      ReachableGuarded unescape fg bg label inner c.ScrollDown
  | setInner (c : Chat) (r : Rectangle) :
      ReachableGuarded unescape fg bg label inner c →
      ReachableGuarded unescape fg bg label inner (c.setInner r)

/-- The fresh chat of the examples: no message, a pane 4 columns wide and 3 rows high. -/
def freshChat : Chat :=
  newChat 7 0 "" ⟨⟨0, 0⟩, ⟨4, 3⟩⟩

/-- The fresh chat of the examples after twelve messages "m" were added. -/
def twelveMessages : Chat :=
  (List.replicate 12 "m").foldl (Chat.AddMessage id) freshChat

/-! ## The border label -/

/-- The fields of `service.Channel` that `chat.go` reads (the type belongs to the package
`service`). -/
structure Channel where
  Name : String
  Topic : String

/-- The method `Chat.SetBorderLabel` (chat.go 211-222); `fmt.Sprintf("%s - %s", a, b)` is
`a`, then " - ", then `b`. -/
def Chat.SetBorderLabel (c : Chat) (channel : Channel) : Chat :=
  let channelName : String :=
    if channel.Topic ≠ "" then channel.Name ++ " - " ++ channel.Topic
    else channel.Name
  { c with List := { c.List with BorderLabel := channelName } }

/-! ## `NewConfig` (`config/config.go`) -/

/-- The type `keyMapping` (config.go 18), a map from key to action, as the list of its
entries. -/
abbrev keyMapping := List (String × String)

/-- The type `Config` (config.go 10-16); the map `KeyMap` as the list of its entries. -/
structure Config where
  SlackToken : String
  Theme : String
  SidebarWidth : Int
  MainWidth : Int
  KeyMap : List (String × keyMapping)
deriving DecidableEq

/-- The global `termui.ColorMap`, a map from name to colour, as the list of its
entries. -/
abbrev ColorMap := List (String × Attribute)

/-- What `NewConfig` returns and leaves behind: the config, the error (`none` is `nil`,
`some msg` is `errors.New(msg)`) and the global `termui.ColorMap` after the call. -/
structure NewConfigResult where
  cfg : Config
  err : Option String
  colorMap : ColorMap
deriving DecidableEq

/-- The function `NewConfig` (config.go 21-58). The global `termui.ColorMap` before the
call is the argument `colorMap`; the termui colours `ColorBlack`, `ColorWhite`,
`ColorBlue` and `ColorYellow` are the arguments `black`, `white`, `blue`, `yellow`. -/
def NewConfig (black white blue yellow : Attribute) (colorMap : ColorMap) :
    NewConfigResult :=
  let cfg : Config :=
    { SlackToken := "",
      Theme := "light",
      SidebarWidth := 1,
      MainWidth := 11,
      KeyMap := [("command", [("q", "quit")]), ("insert", [])] }
  if cfg.SlackToken = "" then
    ⟨cfg, some "couldn't find 'slack_token' parameter", colorMap⟩
  else if cfg.SidebarWidth < 1 ∨ cfg.SidebarWidth > 11 then
    ⟨cfg, some "please specify the 'sidebar_width' between 1 and 11", colorMap⟩
  else
    let cfg : Config := { cfg with MainWidth := 1 }
    let colorMap : ColorMap :=
      if cfg.Theme = "light" then
        [("fg", black), ("bg", white), ("border.fg", black), ("label.fg", blue),
          ("par.fg", yellow), ("par.label.bg", white)]
      else colorMap
    ⟨cfg, none, colorMap⟩

/-! ## Lemmas about the wrapping loop -/

/-- The lines already closed come first in the result of the wrapping loop. -/
theorem wrapLoop_append (runeWidth : Char → Int) (dx : Int) (cells : List Cell) :
    ∀ (lines : List Line) (line : Line) (x : Int),
      wrapLoop runeWidth dx cells lines line x
        = lines ++ wrapLoop runeWidth dx cells [] line x := by
  induction cells with
  | nil => intro lines line x; simp [wrapLoop]
  | cons cell rest ih =>
    intro lines line x
    simp only [wrapLoop]
    split
    · rw [ih (lines ++ [line]), ih ([] ++ [line])]; simp
    · split
      · simp only []
        rw [ih (lines ++ [line]), ih ([] ++ [line])]; simp
      · simp only []
        rw [ih lines]



/-- The wrapping loop at a newline cell: the current line is closed. -/
theorem wrapLoop_newline (runeWidth : Char → Int) (dx : Int) (cell : Cell) (rest : List Cell)
    (line : Line) (x : Int) (h : cell.Ch = '\n') :
    wrapLoop runeWidth dx (cell :: rest) [] line x
      = line :: wrapLoop runeWidth dx rest [] [] 0 := by
  simp only [wrapLoop, h, if_true]
  rw [wrapLoop_append]; rfl

/-- The wrapping loop at a cell that does not fit: the current line is closed and the
cell starts the next line. -/
theorem wrapLoop_break (runeWidth : Char → Int) (dx : Int) (cell : Cell) (rest : List Cell)
    (line : Line) (x : Int) (h : cell.Ch ≠ '\n') (hx : x + cell.Width runeWidth > dx) :
    wrapLoop runeWidth dx (cell :: rest) [] line x
      = line :: wrapLoop runeWidth dx rest [] [cell] 1 := by
  simp only [wrapLoop, h, if_false, hx, if_true]
  rw [wrapLoop_append]; rfl

/-- The wrapping loop at a cell that fits: the cell is appended to the current line. -/
theorem wrapLoop_keep (runeWidth : Char → Int) (dx : Int) (cell : Cell) (rest : List Cell)
    (line : Line) (x : Int) (h : cell.Ch ≠ '\n') (hx : ¬ x + cell.Width runeWidth > dx) :
    wrapLoop runeWidth dx (cell :: rest) [] line x
      = wrapLoop runeWidth dx rest [] (line ++ [cell]) (x + 1) := by
  simp only [wrapLoop, h, if_false, hx]

/-- Every cell of a produced line was in the current line or is a cell of the input
other than a newline. -/
theorem wrapLoop_mem (runeWidth : Char → Int) (dx : Int) (cells : List Cell) :
    ∀ (line : Line) (x : Int), ∀ l ∈ wrapLoop runeWidth dx cells [] line x,
      ∀ cell ∈ l, cell ∈ line ∨ (cell ∈ cells ∧ cell.Ch ≠ '\n') := by
  induction cells with
  | nil =>
    intro line x l hl cell hc
    simp [wrapLoop] at hl
    subst hl; exact Or.inl hc
  | cons c rest ih =>
    intro line x l hl cell hc
    by_cases hn : c.Ch = '\n'
    · rw [wrapLoop_newline _ _ _ _ _ _ hn] at hl
      rcases List.mem_cons.1 hl with h | h
      · subst h; exact Or.inl hc
      · rcases ih [] 0 l h cell hc with h1 | h1
        · simp at h1
        · exact Or.inr ⟨List.mem_cons_of_mem _ h1.1, h1.2⟩
    · by_cases hx : x + c.Width runeWidth > dx
      · rw [wrapLoop_break _ _ _ _ _ _ hn hx] at hl
        rcases List.mem_cons.1 hl with h | h
        · subst h; exact Or.inl hc
        · rcases ih [c] 1 l h cell hc with h1 | h1
          · simp at h1; subst h1; exact Or.inr ⟨List.mem_cons_self _ _, hn⟩
          · exact Or.inr ⟨List.mem_cons_of_mem _ h1.1, h1.2⟩
      · rw [wrapLoop_keep _ _ _ _ _ _ hn hx] at hl
        rcases ih (line ++ [c]) (x + 1) l hl cell hc with h1 | h1
        · rcases List.mem_append.1 h1 with h2 | h2
          · exact Or.inl h2
          · simp at h2; subst h2; exact Or.inr ⟨List.mem_cons_self _ _, hn⟩
        · exact Or.inr ⟨List.mem_cons_of_mem _ h1.1, h1.2⟩

/-- With cells of width 1 and a pane at least one column wide, no produced line has
more cells than the pane has columns. -/
theorem wrapLoop_length_le (runeWidth : Char → Int) (dx : Int) (hdx : 1 ≤ dx)
    (cells : List Cell) :
    ∀ (line : Line) (x : Int),
      (∀ cell ∈ cells, cell.Ch ≠ '\n' → cell.Width runeWidth = 1) →
      x = line.length → x ≤ dx →
      ∀ l ∈ wrapLoop runeWidth dx cells [] line x, (l.length : Int) ≤ dx := by
  induction cells with
  | nil =>
    intro line x _ hx hle l hl
    simp [wrapLoop] at hl
    subst hl; omega
  | cons c rest ih =>
    intro line x hw hx hle l hl
    have hw1 : ∀ cell ∈ rest, cell.Ch ≠ '\n' → cell.Width runeWidth = 1 :=
      fun cell hc => hw cell (List.mem_cons_of_mem _ hc)
    by_cases hn : c.Ch = '\n'
    · rw [wrapLoop_newline _ _ _ _ _ _ hn] at hl
      rcases List.mem_cons.1 hl with h | h
      · subst h; omega
      · exact ih [] 0 hw1 (by simp) (by omega) l h
    · have hc1 := hw c (List.mem_cons_self _ _) hn
      by_cases hb : x + c.Width runeWidth > dx
      · rw [wrapLoop_break _ _ _ _ _ _ hn hb] at hl
        rcases List.mem_cons.1 hl with h | h
        · subst h; omega
        · exact ih [c] 1 hw1 (by simp) hdx l h
      · rw [wrapLoop_keep _ _ _ _ _ _ hn hb] at hl
        exact ih (line ++ [c]) (x + 1) hw1 (by simp; omega) (by omega) l hl

/-- The display width of a line of cells of width 1 is its number of cells. -/
theorem lineWidth_eq_length (runeWidth : Char → Int) (line : Line)
    (h : ∀ cell ∈ line, cell.Width runeWidth = 1) : lineWidth runeWidth line = line.length := by
  induction line with
  | nil => simp [lineWidth]
  | cons c rest ih =>
    have h1 := h c (List.mem_cons_self _ _)
    have h2 := ih (fun cell hc => h cell (List.mem_cons_of_mem _ hc))
    simp only [lineWidth, List.map_cons, List.sum_cons, List.length_cons] at h2 ⊢
    rw [h1, h2]; push_cast; ring

/-- The characters of joined strings are characters of the separator or of one of the
strings. -/
theorem mem_Join (items : List String) (sep : String) (ch : Char)
    (h : ch ∈ (Join items sep).toList) :
    ch ∈ sep.toList ∨ ∃ m ∈ items, ch ∈ m.toList := by
  induction items with
  | nil => simp [Join] at h
  | cons a rest ih =>
    cases rest with
    | nil => exact Or.inr ⟨a, List.mem_cons_self _ _, by simpa [Join] using h⟩
    | cons b rest =>
      simp only [Join, String.toList, String.data_append, List.mem_append] at h
      rcases h with (h | h) | h
      · exact Or.inr ⟨a, List.mem_cons_self _ _, h⟩
      · exact Or.inl h
      · rcases ih h with h1 | ⟨m, hm, hc⟩
        · exact Or.inl h1
        · exact Or.inr ⟨m, List.mem_cons_of_mem _ hm, hc⟩

/-- The cells built from joined items: the cells of the first item, a newline cell, the
cells of the other items joined. -/
theorem Build_Join_cons (a b : String) (rest : List String) (fg bg : Attribute) :
    Build (Join (a :: b :: rest) "\n") fg bg
      = Build a fg bg ++ ⟨'\n', fg, bg⟩ :: Build (Join (b :: rest) "\n") fg bg := by
  simp [Build, Join, String.toList, String.data_append]

/-- A run of non-newline cells of width 1 that fits the rest of the current line is
appended to the current line. -/
theorem wrapLoop_segment (runeWidth : Char → Int) (dx : Int) (seg : List Cell) :
    ∀ (tail : List Cell) (line : Line) (x : Int),
      (∀ cell ∈ seg, cell.Ch ≠ '\n' ∧ cell.Width runeWidth = 1) →
      x = line.length → (line.length : Int) + seg.length ≤ dx →
      wrapLoop runeWidth dx (seg ++ tail) [] line x
        = wrapLoop runeWidth dx tail [] (line ++ seg) (x + seg.length) := by
  induction seg with
  | nil => intro tail line x _ _ _; simp
  | cons c rest ih =>
    intro tail line x hseg hx hle
    obtain ⟨hn, hw⟩ := hseg c (List.mem_cons_self _ _)
    have hrest : ∀ cell ∈ rest, cell.Ch ≠ '\n' ∧ cell.Width runeWidth = 1 :=
      fun cell hc => hseg cell (List.mem_cons_of_mem _ hc)
    simp only [List.length_cons, Nat.cast_add, Nat.cast_one] at hle
    have hb : ¬ x + c.Width runeWidth > dx := by omega
    rw [List.cons_append, wrapLoop_keep _ _ _ _ _ _ hn hb,
      ih tail (line ++ [c]) (x + 1) hrest (by simp; omega) (by simp; omega)]
    simp only [List.append_assoc, List.singleton_append, List.length_cons, Nat.cast_add,
      Nat.cast_one]
    congr 1
    omega

/-- Items without newline, of glyphs of width 1, each no longer than the pane is wide:
the wrapping loop gives one line for each item. -/
theorem wrapLoop_items (runeWidth : Char → Int) (dx : Int) (fg bg : Attribute)
    (items : List String) (hne : items ≠ [])
    (hlen : ∀ m ∈ items, (m.length : Int) ≤ dx)
    (hnl : ∀ m ∈ items, '\n' ∉ m.toList)
    (hw : ∀ m ∈ items, ∀ ch ∈ m.toList, runeWidth ch = 1) :
    wrapLoop runeWidth dx (Build (Join items "\n") fg bg) [] [] 0
      = items.map fun m => Build m fg bg := by
  induction items with
  | nil => exact absurd rfl hne
  | cons a rest ih =>
    have hseg : ∀ cell ∈ Build a fg bg, cell.Ch ≠ '\n' ∧ cell.Width runeWidth = 1 := by
      intro cell hc
      simp only [Build, List.mem_map] at hc
      obtain ⟨ch, hch, rfl⟩ := hc
      refine ⟨?_, hw a (List.mem_cons_self _ _) ch hch⟩
      intro h
      exact hnl a (List.mem_cons_self _ _) (h ▸ hch)
    have hla : ((Build a fg bg).length : Int) ≤ dx := by
      have := hlen a (List.mem_cons_self _ _)
      simp only [Build, List.length_map]
      exact this
    cases rest with
    | nil =>
      have h := wrapLoop_segment runeWidth dx (Build a fg bg) [] [] 0 hseg (by simp)
        (by simpa using hla)
      simp only [List.append_nil, List.nil_append] at h
      simp only [Join, List.map_cons, List.map_nil]
      rw [h]; simp [wrapLoop]
    | cons b rest =>
      have h := wrapLoop_segment runeWidth dx (Build a fg bg)
        (⟨'\n', fg, bg⟩ :: Build (Join (b :: rest) "\n") fg bg) [] 0 hseg (by simp)
        (by simpa using hla)
      rw [Build_Join_cons, h, wrapLoop_newline _ _ _ _ _ _ rfl,
        ih (by simp) (fun m hm => hlen m (List.mem_cons_of_mem _ hm))
          (fun m hm => hnl m (List.mem_cons_of_mem _ hm))
          (fun m hm => hw m (List.mem_cons_of_mem _ hm))]
      simp

/-- Cells of width 1 without newline are cut into lines of exactly `W` cells, the last
one holding what remains: the loop gives `k + 1` lines with `k * W < total ≤ (k + 1) * W`
and line `j` holds the cells from `j * W` on, `W` of them at most. -/
theorem wrapLoop_chunks (runeWidth : Char → Int) (W : Nat) (hW : 1 ≤ W) (cells : List Cell) :
    ∀ (line : Line) (x : Int),
      (∀ cell ∈ cells, cell.Ch ≠ '\n' ∧ cell.Width runeWidth = 1) →
      x = line.length → line.length ≤ W → 1 ≤ line.length + cells.length →
      ∃ k, (wrapLoop runeWidth W cells [] line x).length = k + 1 ∧
        k * W < line.length + cells.length ∧ line.length + cells.length ≤ (k + 1) * W ∧
        ∀ j, j ≤ k → (wrapLoop runeWidth W cells [] line x)[j]?
          = some (((line ++ cells).drop (j * W)).take W) := by
  induction cells with
  | nil =>
    intro line x _ _ hle hpos
    refine ⟨0, by simp [wrapLoop], by simpa using hpos, by simpa using hle, ?_⟩
    intro j hj
    have hj0 : j = 0 := by omega
    subst hj0
    simp [wrapLoop, List.take_of_length_le hle]
  | cons c rest ih =>
    intro line x hcells hx hle _
    obtain ⟨hn, hw⟩ := hcells c (List.mem_cons_self _ _)
    have hrest : ∀ cell ∈ rest, cell.Ch ≠ '\n' ∧ cell.Width runeWidth = 1 :=
      fun cell hc => hcells cell (List.mem_cons_of_mem _ hc)
    by_cases hb : x + c.Width runeWidth > (W : Int)
    · have hfull : line.length = W := by omega
      obtain ⟨k, hk, h1, h2, h3⟩ := ih [c] 1 hrest (by simp) (by simpa using hW) (by simp)
      rw [wrapLoop_break _ _ _ _ _ _ hn hb]
      simp only [List.length_cons, List.length_nil, zero_add] at h1 h2
      have e1 : (k + 1) * W = k * W + W := by ring
      have e2 : (k + 1 + 1) * W = k * W + W + W := by ring
      refine ⟨k + 1, by simp [hk], ?_, ?_, ?_⟩
      · simp only [List.length_cons]; omega
      · simp only [List.length_cons]; omega
      · intro j hj
        cases j with
        | zero =>
          simp only [List.getElem?_cons_zero, Nat.zero_mul, List.drop_zero]
          rw [← hfull, List.take_left']
          rfl
        | succ j =>
          simp only [List.getElem?_cons_succ]
          rw [h3 j (by omega)]
          have hd : (j + 1) * W = line.length + j * W := by rw [Nat.add_mul, hfull]; omega
          rw [hd, List.drop_append]
          rfl
    · obtain ⟨k, hk, h1, h2, h3⟩ := ih (line ++ [c]) (x + 1) hrest (by simp; omega)
        (by simp; omega) (by simp; omega)
      rw [wrapLoop_keep _ _ _ _ _ _ hn hb]
      simp only [List.length_append, List.length_cons, List.length_nil, zero_add] at h1 h2
      refine ⟨k, hk, by simp only [List.length_cons]; omega,
        by simp only [List.length_cons]; omega, ?_⟩
      intro j hj
      rw [h3 j hj]
      simp

/-- The wrapping loop produces one line more than it reads newline cells, at least. -/
theorem wrapLoop_length_ge (runeWidth : Char → Int) (dx : Int) (cells : List Cell) :
    ∀ (line : Line) (x : Int),
      cells.countP (fun cell => cell.Ch == '\n') + 1
        ≤ (wrapLoop runeWidth dx cells [] line x).length := by
  induction cells with
  | nil => intro line x; simp [wrapLoop]
  | cons c rest ih =>
    intro line x
    by_cases hn : c.Ch = '\n'
    · rw [wrapLoop_newline _ _ _ _ _ _ hn, List.countP_cons_of_pos _ _ (by simp [hn])]
      have := ih [] 0
      simp only [List.length_cons]; omega
    · rw [List.countP_cons_of_neg _ _ (by simp [hn])]
      by_cases hb : x + c.Width runeWidth > dx
      · rw [wrapLoop_break _ _ _ _ _ _ hn hb]
        have := ih [c] 1
        simp only [List.length_cons]; omega
      · rw [wrapLoop_keep _ _ _ _ _ _ hn hb]
        exact ih _ _

/-- The cells built from the joined items hold one newline cell for each item but one,
at least. -/
theorem countP_Build_Join (items : List String) (fg bg : Attribute) :
    items.length
      ≤ (Build (Join items "\n") fg bg).countP (fun cell => cell.Ch == '\n') + 1 := by
  induction items with
  | nil => simp
  | cons a rest ih =>
    cases rest with
    | nil => simp
    | cons b rest =>
      rw [Build_Join_cons, List.countP_append, List.countP_cons_of_pos _ _ (by simp)]
      simp only [List.length_cons] at ih ⊢
      omega

/-- The number of lines of a chat is at least 1 and at least the number of items. -/
theorem lines_length_ge (runeWidth : Char → Int) (c : Chat) :
    1 ≤ (c.lines runeWidth).length ∧ c.List.Items.length ≤ (c.lines runeWidth).length := by
  have h1 := wrapLoop_length_ge runeWidth c.List.Inner.Dx
    (Build (Join c.List.Items "\n") c.List.ItemFgColor c.List.ItemBgColor) [] 0
  have h2 := countP_Build_Join c.List.Items c.List.ItemFgColor c.List.ItemBgColor
  simp only [Chat.lines]
  omega

/-! ## Lemmas about the render loops -/

/-- The fill loop, run with enough iterations, stores the blank cell at the columns from
`x` up to `maxX` of row `currentY` and changes nothing else. -/
theorem fillLoop_CellMap (maxX currentY : Int) (blank : Cell) :
    ∀ (n : Nat) (x : Int) (buf : Buffer), (maxX - x).toNat ≤ n → ∀ x1 y1 : Int,
      (fillLoop maxX currentY blank n x buf).CellMap x1 y1
        = if y1 = currentY ∧ x ≤ x1 ∧ x1 < maxX then some blank else buf.CellMap x1 y1 := by
  intro n
  induction n with
  | zero =>
    intro x buf hn x1 y1
    have : ¬ (y1 = currentY ∧ x ≤ x1 ∧ x1 < maxX) := by omega
    simp [fillLoop, this]
  | succ n ih =>
    intro x buf hn x1 y1
    simp only [fillLoop]
    by_cases hx : x < maxX
    · rw [if_pos hx, ih (x + 1) _ (by omega)]
      simp only [Buffer.Set]
      by_cases h1 : y1 = currentY ∧ x + 1 ≤ x1 ∧ x1 < maxX
      · rw [if_pos h1, if_pos (by omega)]
      · rw [if_neg h1]
        by_cases h2 : x1 = x ∧ y1 = currentY
        · rw [if_pos h2, if_pos (by omega)]
        · rw [if_neg h2, if_neg (by omega)]
    · rw [if_neg hx, if_neg (by omega)]

/-- The cells of a filled row. -/
theorem fillRow_CellMap (maxX currentY : Int) (blank : Cell) (x : Int) (buf : Buffer)
    (x1 y1 : Int) :
    (fillRow maxX currentY blank x buf).CellMap x1 y1
      = if y1 = currentY ∧ x ≤ x1 ∧ x1 < maxX then some blank else buf.CellMap x1 y1 :=
  fillLoop_CellMap maxX currentY blank _ x buf (le_refl _) x1 y1

/-- The loop over the cells of a line ends with `x` moved by the width of the line. -/
theorem setCells_fst (runeWidth : Char → Int) (currentY : Int) (cells : List Cell) :
    ∀ (x : Int) (buf : Buffer),
      (setCells runeWidth currentY cells x buf).1 = x + lineWidth runeWidth cells := by
  induction cells with
  | nil => intro x buf; simp [setCells, lineWidth]
  | cons c rest ih =>
    intro x buf
    simp only [setCells, ih, lineWidth, List.map_cons, List.sum_cons]
    ring

/-- The loop over the cells of a line writes in row `currentY` only. -/
theorem setCells_other_row (runeWidth : Char → Int) (currentY : Int) (cells : List Cell) :
    ∀ (x : Int) (buf : Buffer) (x1 y1 : Int), y1 ≠ currentY →
      (setCells runeWidth currentY cells x buf).2.CellMap x1 y1 = buf.CellMap x1 y1 := by
  induction cells with
  | nil => intro x buf x1 y1 _; rfl
  | cons c rest ih =>
    intro x buf x1 y1 hy
    simp only [setCells]
    rw [ih _ _ x1 y1 hy]
    simp [Buffer.Set, hy]

/-- What the loop over the cells of a line leaves at a point depends on the buffer at
that point only. -/
theorem setCells_congr (runeWidth : Char → Int) (currentY : Int) (cells : List Cell) :
    ∀ (x : Int) (buf1 buf2 : Buffer) (x1 y1 : Int),
      buf1.CellMap x1 y1 = buf2.CellMap x1 y1 →
      (setCells runeWidth currentY cells x buf1).2.CellMap x1 y1
        = (setCells runeWidth currentY cells x buf2).2.CellMap x1 y1 := by
  induction cells with
  | nil => intro x buf1 buf2 x1 y1 h; exact h
  | cons c rest ih =>
    intro x buf1 buf2 x1 y1 h
    simp only [setCells]
    apply ih
    simp only [Buffer.Set]
    split
    · rfl
    · exact h

/-- The width of a line of cells of non-negative width is not negative. -/
theorem lineWidth_nonneg (runeWidth : Char → Int) (line : Line)
    (h : ∀ cell ∈ line, 0 ≤ cell.Width runeWidth) : 0 ≤ lineWidth runeWidth line := by
  induction line with
  | nil => simp [lineWidth]
  | cons c rest ih =>
    have h1 := h c (List.mem_cons_self _ _)
    have h2 := ih (fun cell hc => h cell (List.mem_cons_of_mem _ hc))
    simp only [lineWidth, List.map_cons, List.sum_cons] at h2 ⊢
    omega

/-- With cells of width 1 at least, the loop over the cells of a line writes at the
columns from `x` up to `x` plus the width of the line only. -/
theorem setCells_outside (runeWidth : Char → Int) (currentY : Int) (cells : List Cell) :
    ∀ (x : Int) (buf : Buffer) (x1 y1 : Int),
      (∀ cell ∈ cells, 1 ≤ cell.Width runeWidth) →
      (x1 < x ∨ x + lineWidth runeWidth cells ≤ x1) →
      (setCells runeWidth currentY cells x buf).2.CellMap x1 y1 = buf.CellMap x1 y1 := by
  induction cells with
  | nil => intro x buf x1 y1 _ _; rfl
  | cons c rest ih =>
    intro x buf x1 y1 hw hx
    have h1 := hw c (List.mem_cons_self _ _)
    have hrest : ∀ cell ∈ rest, 1 ≤ cell.Width runeWidth :=
      fun cell hc => hw cell (List.mem_cons_of_mem _ hc)
    have h2 := lineWidth_nonneg runeWidth rest
      (fun cell hc => by have := hrest cell hc; omega)
    simp only [lineWidth, List.map_cons, List.sum_cons] at hx h2
    simp only [setCells]
    rw [ih _ _ x1 y1 hrest (by simp only [lineWidth]; omega)]
    simp only [Buffer.Set]
    rw [if_neg (by omega)]

/-- With cells of width 1 at least, cell `j` of the line is stored at the column `x` plus
the widths of the cells before it. -/
theorem setCells_get (runeWidth : Char → Int) (currentY : Int) (cells : List Cell) :
    ∀ (x : Int) (buf : Buffer), (∀ cell ∈ cells, 1 ≤ cell.Width runeWidth) →
      ∀ (j : Nat) (cell : Cell), cells[j]? = some cell →
        (setCells runeWidth currentY cells x buf).2.CellMap
          (x + lineWidth runeWidth (cells.take j)) currentY = some cell := by
  induction cells with
  | nil => intro x buf _ j cell h; simp at h
  | cons c rest ih =>
    intro x buf hw j cell hj
    have h1 := hw c (List.mem_cons_self _ _)
    have hrest : ∀ cell ∈ rest, 1 ≤ cell.Width runeWidth :=
      fun cell hc => hw cell (List.mem_cons_of_mem _ hc)
    simp only [setCells]
    cases j with
    | zero =>
      simp only [List.getElem?_cons_zero, Option.some.injEq] at hj
      subst hj
      rw [setCells_outside _ _ _ _ _ _ _ hrest (Or.inl (by simp [lineWidth]; omega))]
      simp [Buffer.Set, lineWidth]
    | succ j =>
      simp only [List.getElem?_cons_succ] at hj
      have := ih (x + c.Width runeWidth) (buf.Set x currentY c) hrest j cell hj
      simp only [List.take_succ_cons, lineWidth, List.map_cons, List.sum_cons] at this ⊢
      rw [← this]
      congr 1
      ring

/-- The cells after drawing a line: blanks from the end of the line up to the right
edge, and what the loop over the cells of the line left elsewhere. -/
theorem drawLine_CellMap (runeWidth : Char → Int) (c : Chat) (line : Line) (currentY : Int)
    (buf : Buffer) (x1 y1 : Int) :
    (drawLine runeWidth c line currentY buf).CellMap x1 y1
      = if y1 = currentY ∧ c.List.Inner.Min.X + lineWidth runeWidth line ≤ x1
            ∧ x1 < c.List.Inner.Max.X then some c.blank
        else (setCells runeWidth currentY line c.List.Inner.Min.X buf).2.CellMap x1 y1 := by
  simp only [drawLine, fillRow_CellMap, setCells_fst]

/-- Drawing a line writes in row `currentY` only. -/
theorem drawLine_other_row (runeWidth : Char → Int) (c : Chat) (line : Line)
    (currentY : Int) (buf : Buffer) (x1 y1 : Int) (hy : y1 ≠ currentY) :
    (drawLine runeWidth c line currentY buf).CellMap x1 y1 = buf.CellMap x1 y1 := by
  rw [drawLine_CellMap, if_neg (by simp [hy]), setCells_other_row _ _ _ _ _ _ _ hy]

/-- What drawing a line leaves at a point depends on the buffer at that point only. -/
theorem drawLine_congr (runeWidth : Char → Int) (c : Chat) (line : Line) (currentY : Int)
    (buf1 buf2 : Buffer) (x1 y1 : Int) (h : buf1.CellMap x1 y1 = buf2.CellMap x1 y1) :
    (drawLine runeWidth c line currentY buf1).CellMap x1 y1
      = (drawLine runeWidth c line currentY buf2).CellMap x1 y1 := by
  rw [drawLine_CellMap, drawLine_CellMap, setCells_congr _ _ _ _ _ _ _ _ h]

/-- The loop over the lines, run with enough iterations from an index inside `lines`:
it ends, with `currentY` moved up by the number of lines drawn, each row passed holds
the line drawn in it and no other row has changed. -/
theorem lineLoop_spec (runeWidth : Char → Int) (c : Chat) (lines : List Line) :
    ∀ (n : Nat) (i y : Int) (buf : Buffer), i + 1 ≤ n → i < lines.length →
      ∃ (y2 : Int) (buf2 : Buffer), lineLoop runeWidth c lines n i y buf = some (y2, buf2) ∧
        y2 = y - max 0 (min (i + 1) (y - c.List.Inner.Min.Y + 1)) ∧
        (∀ x1 y1 : Int, (y1 ≤ y2 ∨ y < y1) → buf2.CellMap x1 y1 = buf.CellMap x1 y1) ∧
        (∀ x1 y1 : Int, y2 < y1 → y1 ≤ y →
          ∃ line, lines[(i - (y - y1)).toNat]? = some line ∧
            buf2.CellMap x1 y1 = (drawLine runeWidth c line y1 buf).CellMap x1 y1) := by
  intro n
  induction n with
  | zero =>
    intro i y buf hn _
    refine ⟨y, buf, rfl, by omega, fun _ _ _ => rfl, ?_⟩
    intro x1 y1 h1 h2
    omega
  | succ n ih =>
    intro i y buf hn hi
    simp only [lineLoop]
    by_cases h0 : i ≥ 0
    · rw [if_pos h0]
      by_cases hy : y < c.List.Inner.Min.Y
      · rw [if_pos hy]
        refine ⟨y, buf, rfl, by omega, fun _ _ _ => rfl, ?_⟩
        intro x1 y1 h1 h2
        omega
      · rw [if_neg hy]
        have hlt : i.toNat < lines.length := by omega
        rw [List.getElem?_eq_getElem hlt]
        simp only []
        obtain ⟨y2, buf2, hrun, hy2, hsame, hdrawn⟩ :=
          ih (i - 1) (y - 1) (drawLine runeWidth c lines[i.toNat] y buf) (by omega) (by omega)
        refine ⟨y2, buf2, hrun, by omega, ?_, ?_⟩
        · intro x1 y1 h
          rw [hsame x1 y1 (by omega), drawLine_other_row _ _ _ _ _ _ _ (by omega)]
        · intro x1 y1 h1 h2
          by_cases hy1 : y1 = y
          · subst hy1
            refine ⟨lines[i.toNat], ?_, hsame x1 y1 (by omega)⟩
            rw [show (i - (y1 - y1)).toNat = i.toNat by congr 1; omega]
            exact List.getElem?_eq_getElem hlt
          · obtain ⟨line, hline, hcell⟩ := hdrawn x1 y1 h1 (by omega)
            refine ⟨line, ?_, ?_⟩
            · rw [show (i - (y - y1)).toNat = (i - 1 - (y - 1 - y1)).toNat by congr 1; omega]
              exact hline
            · rw [hcell]
              exact drawLine_congr _ _ _ _ _ _ _ _
                (drawLine_other_row _ _ _ _ _ _ _ hy1)
    · rw [if_neg h0]
      refine ⟨y, buf, rfl, by omega, fun _ _ _ => rfl, ?_⟩
      intro x1 y1 h1 h2
      omega

/-- The loop that blanks the rows above the lines, run with enough iterations, stores the
blank cell in the pane columns of the rows from `Min.Y` to `currentY` and changes nothing
else. -/
theorem blankLoop_CellMap (c : Chat) :
    ∀ (n : Nat) (y : Int) (buf : Buffer), (y - c.List.Inner.Min.Y + 1).toNat ≤ n →
      ∀ x1 y1 : Int, (blankLoop c n y buf).CellMap x1 y1
        = if c.List.Inner.Min.Y ≤ y1 ∧ y1 ≤ y ∧ c.List.Inner.Min.X ≤ x1
              ∧ x1 < c.List.Inner.Max.X then some c.blank
          else buf.CellMap x1 y1 := by
  intro n
  induction n with
  | zero =>
    intro y buf hn x1 y1
    simp only [blankLoop]
    rw [if_neg (by omega)]
  | succ n ih =>
    intro y buf hn x1 y1
    simp only [blankLoop]
    by_cases hy : y ≥ c.List.Inner.Min.Y
    · rw [if_pos hy, ih (y - 1) _ (by omega), fillRow_CellMap]
      by_cases h1 : c.List.Inner.Min.Y ≤ y1 ∧ y1 ≤ y - 1 ∧ c.List.Inner.Min.X ≤ x1
          ∧ x1 < c.List.Inner.Max.X
      · rw [if_pos h1, if_pos (by omega)]
      · rw [if_neg h1]
        by_cases h2 : y1 = y ∧ c.List.Inner.Min.X ≤ x1 ∧ x1 < c.List.Inner.Max.X
        · rw [if_pos h2, if_pos (by omega)]
        · rw [if_neg h2, if_neg (by omega)]
    · rw [if_neg hy, if_neg (by omega)]

/-- The render loops with an offset that is not negative: they end without panic; a row
outside the pane is unchanged; a pane row at distance `d` from the bottom row holds line
`len(lines) - 1 - Offset - d` as `drawLine` draws it when that index is not negative, and
blank cells in all pane columns otherwise. -/
theorem render_spec (runeWidth : Char → Int) (c : Chat) (lines : Lines) (buf : Buffer)
    (hoff : 0 ≤ c.Offset) :
    ∃ buf2, c.render runeWidth lines buf = some buf2 ∧
      (∀ x1 y1 : Int, (y1 < c.List.Inner.Min.Y ∨ c.List.Inner.Max.Y ≤ y1) →
        buf2.CellMap x1 y1 = buf.CellMap x1 y1) ∧
      (∀ x1 y1 : Int, c.List.Inner.Min.Y ≤ y1 → y1 < c.List.Inner.Max.Y →
        0 ≤ (lines.length : Int) - 1 - c.Offset - (c.List.Inner.Max.Y - 1 - y1) →
        ∃ line,
          lines[((lines.length : Int) - 1 - c.Offset - (c.List.Inner.Max.Y - 1 - y1)).toNat]?
            = some line ∧
          buf2.CellMap x1 y1 = (drawLine runeWidth c line y1 buf).CellMap x1 y1) ∧
      (∀ x1 y1 : Int, c.List.Inner.Min.Y ≤ y1 → y1 < c.List.Inner.Max.Y →
        (lines.length : Int) - 1 - c.Offset - (c.List.Inner.Max.Y - 1 - y1) < 0 →
        buf2.CellMap x1 y1
          = if c.List.Inner.Min.X ≤ x1 ∧ x1 < c.List.Inner.Max.X then some c.blank
            else buf.CellMap x1 y1) := by
  obtain ⟨y2, buf2, hrun, hy2, hsame, hdrawn⟩ :=
    lineLoop_spec runeWidth c lines ((lines.length : Int) - 1 - c.Offset + 1).toNat
      ((lines.length : Int) - 1 - c.Offset) (c.List.Inner.Max.Y - 1) buf (by omega) (by omega)
  refine ⟨blankLoop c (y2 - c.List.Inner.Min.Y + 1).toNat y2 buf2, ?_, ?_, ?_, ?_⟩
  · simp only [Chat.render, hrun]
  · intro x1 y1 h
    rw [blankLoop_CellMap c _ _ _ (le_refl _), if_neg (by omega), hsame x1 y1 (by omega)]
  · intro x1 y1 h1 h2 h3
    rw [blankLoop_CellMap c _ _ _ (le_refl _), if_neg (by omega)]
    obtain ⟨line, hline, hcell⟩ := hdrawn x1 y1 (by omega) (by omega)
    exact ⟨line, hline, hcell⟩
  · intro x1 y1 h1 h2 h3
    rw [blankLoop_CellMap c _ _ _ (le_refl _)]
    by_cases hx : c.List.Inner.Min.X ≤ x1 ∧ x1 < c.List.Inner.Max.X
    · rw [if_pos hx, if_pos (by omega)]
    · rw [if_neg hx, if_neg (by omega), hsame x1 y1 (by omega)]

/-- With glyphs of width 1 in every message (a newline inside a message apart), every
cell of every line of the chat has width 1. -/
theorem lines_cells_width_one (runeWidth : Char → Int) (c : Chat)
    (hw : ∀ m ∈ c.List.Items, ∀ ch ∈ m.toList, ch ≠ '\n' → runeWidth ch = 1) :
    (∀ cell ∈ Build (Join c.List.Items "\n") c.List.ItemFgColor c.List.ItemBgColor,
      cell.Ch ≠ '\n' → cell.Width runeWidth = 1) ∧
    ∀ line ∈ c.lines runeWidth, ∀ cell ∈ line, cell.Width runeWidth = 1 := by
  have hcells : ∀ cell ∈ Build (Join c.List.Items "\n") c.List.ItemFgColor c.List.ItemBgColor,
      cell.Ch ≠ '\n' → cell.Width runeWidth = 1 := by
    intro cell hcell hn
    simp only [Build, List.mem_map] at hcell
    obtain ⟨ch, hch, rfl⟩ := hcell
    rcases mem_Join _ _ _ hch with h | ⟨m, hm, hc⟩
    · simp [String.toList] at h
      exact absurd h hn
    · exact hw m hm ch hc hn
  refine ⟨hcells, ?_⟩
  intro line hline cell hc
  rcases wrapLoop_mem runeWidth _ _ [] 0 line hline cell hc with h | h
  · simp at h
  · exact hcells cell h.1 h.2

/-- A drawn line is shown in its row when its cells have width 1 at least. -/
theorem drawLine_shows (runeWidth : Char → Int) (c : Chat) (l : Line) (y : Int)
    (buf buf2 : Buffer) (hw : ∀ cell ∈ l, 1 ≤ cell.Width runeWidth)
    (h : ∀ x1 : Int, buf2.CellMap x1 y = (drawLine runeWidth c l y buf).CellMap x1 y) :
    ShowsLine runeWidth c buf2 y l := by
  constructor
  · intro j cell hj
    have hjlt : j < l.length := by
      rcases Nat.lt_or_ge j l.length with h1 | h1
      · exact h1
      · rw [List.getElem?_eq_none h1] at hj; cases hj
    have hsplit : lineWidth runeWidth l
        = lineWidth runeWidth (l.take j) + lineWidth runeWidth (l.drop j) := by
      simp only [lineWidth]
      rw [← List.sum_append, ← List.map_append, List.take_append_drop]
    have hdrop : 1 ≤ lineWidth runeWidth (l.drop j) := by
      rw [List.drop_eq_getElem_cons hjlt]
      have h1 := hw l[j] (List.getElem_mem _)
      have h2 := lineWidth_nonneg runeWidth (l.drop (j + 1)) (fun cell hc => by
        have := hw cell (List.mem_of_mem_drop hc); omega)
      simp only [lineWidth, List.map_cons, List.sum_cons] at h2 ⊢
      omega
    rw [h, drawLine_CellMap, if_neg (by omega)]
    exact setCells_get runeWidth y l _ buf hw j cell hj
  · intro x h1 h2
    rw [h, drawLine_CellMap, if_pos ⟨rfl, h1, h2⟩]

/-- The width table of the examples gives every rune a width of 1 at least. -/
theorem cjkWidth_pos (ch : Char) : 1 ≤ cjkWidth ch := by
  simp only [cjkWidth]
  split <;> decide

/-! ## Width of the wrapped lines -/

/-- C1, as stated, fails: with the three wide glyphs of "世界人" in a pane of width 3 the
first line holds two glyphs and is 4 columns wide, and in a pane of width 0 the line
holding "a" is 1 column wide. -/
theorem lines_exceed_pane_width :
    (∃ line ∈ (chatOf ["世界人"] ⟨⟨0, 0⟩, ⟨3, 1⟩⟩ 0).lines cjkWidth,
        (chatOf ["世界人"] ⟨⟨0, 0⟩, ⟨3, 1⟩⟩ 0).List.Inner.Dx < lineWidth cjkWidth line) ∧
    (∃ line ∈ (chatOf ["a"] ⟨⟨0, 0⟩, ⟨0, 1⟩⟩ 0).lines cjkWidth,
        (chatOf ["a"] ⟨⟨0, 0⟩, ⟨0, 1⟩⟩ 0).List.Inner.Dx < lineWidth cjkWidth line) := by
  decide

/-- C1, amended: when the pane is at least one column wide and every glyph of every
message has display width 1 (a newline inside a message, which ends a line, apart),
every line that the wrapping loop of `Chat.Buffer` produces has a total display width of
at most the pane width. -/
theorem lines_width_le_pane (runeWidth : Char → Int) (c : Chat)
    (hdx : 1 ≤ c.List.Inner.Dx)
    (hw : ∀ m ∈ c.List.Items, ∀ ch ∈ m.toList, ch ≠ '\n' → runeWidth ch = 1) :
    ∀ line ∈ c.lines runeWidth, lineWidth runeWidth line ≤ c.List.Inner.Dx := by
  intro l hl
  obtain ⟨hcells, hlines⟩ := lines_cells_width_one runeWidth c hw
  rw [lineWidth_eq_length runeWidth l (hlines l hl)]
  exact wrapLoop_length_le runeWidth _ hdx _ [] 0 hcells (by simp) (by omega) l hl

/-- C1, amended, at the message "abcd" in a pane of width 3. -/
theorem lines_width_le_pane_witness :
    (1 ≤ (chatOf ["abcd"] ⟨⟨0, 0⟩, ⟨3, 1⟩⟩ 0).List.Inner.Dx) ∧
    (∀ m ∈ (chatOf ["abcd"] ⟨⟨0, 0⟩, ⟨3, 1⟩⟩ 0).List.Items, ∀ ch ∈ m.toList,
        ch ≠ '\n' → cjkWidth ch = 1) ∧
    (∀ line ∈ (chatOf ["abcd"] ⟨⟨0, 0⟩, ⟨3, 1⟩⟩ 0).lines cjkWidth,
        lineWidth cjkWidth line ≤ (chatOf ["abcd"] ⟨⟨0, 0⟩, ⟨3, 1⟩⟩ 0).List.Inner.Dx) :=
  ⟨by decide, by decide,
    lines_width_le_pane cjkWidth (chatOf ["abcd"] ⟨⟨0, 0⟩, ⟨3, 1⟩⟩ 0) (by decide) (by decide)⟩

/-! ## One line for each short message, greedy fill of a long one -/

/-- C7: for a non-empty list of messages without newline, each made of glyphs of width
1 and no longer than the pane is wide, the wrapping loop of `Chat.Buffer` yields exactly
one line for each message, in message order, and line `i` holds exactly the cells of
message `i`; in particular an empty message yields an empty line. (The bound `1 ≤ W` of
the claim follows from the other hypotheses or is not needed.) -/
theorem lines_one_per_message (runeWidth : Char → Int) (c : Chat)
    (hne : c.List.Items ≠ [])
    (hlen : ∀ m ∈ c.List.Items, (m.length : Int) ≤ c.List.Inner.Dx)
    (hnl : ∀ m ∈ c.List.Items, '\n' ∉ m.toList)
    (hw : ∀ m ∈ c.List.Items, ∀ ch ∈ m.toList, runeWidth ch = 1) :
    c.lines runeWidth
        = (c.List.Items.map fun m => Build m c.List.ItemFgColor c.List.ItemBgColor) ∧
    ∀ i : Nat, c.List.Items[i]? = some "" → (c.lines runeWidth)[i]? = some [] := by
  have h : c.lines runeWidth
      = c.List.Items.map fun m => Build m c.List.ItemFgColor c.List.ItemBgColor :=
    wrapLoop_items runeWidth _ _ _ _ hne hlen hnl hw
  refine ⟨h, ?_⟩
  intro i hi
  rw [h, List.getElem?_map, hi]
  rfl

/-- C7 at the messages "ab" and "cd" in a pane of width 10: exactly the two lines "ab"
and "cd". -/
theorem lines_one_per_message_witness :
    (chatOf ["ab", "cd"] ⟨⟨0, 0⟩, ⟨10, 2⟩⟩ 0).List.Items ≠ [] ∧
    (∀ m ∈ (chatOf ["ab", "cd"] ⟨⟨0, 0⟩, ⟨10, 2⟩⟩ 0).List.Items,
        (m.length : Int) ≤ (chatOf ["ab", "cd"] ⟨⟨0, 0⟩, ⟨10, 2⟩⟩ 0).List.Inner.Dx) ∧
    (∀ m ∈ (chatOf ["ab", "cd"] ⟨⟨0, 0⟩, ⟨10, 2⟩⟩ 0).List.Items, '\n' ∉ m.toList) ∧
    (∀ m ∈ (chatOf ["ab", "cd"] ⟨⟨0, 0⟩, ⟨10, 2⟩⟩ 0).List.Items, ∀ ch ∈ m.toList,
        cjkWidth ch = 1) ∧
    (chatOf ["ab", "cd"] ⟨⟨0, 0⟩, ⟨10, 2⟩⟩ 0).lines cjkWidth
      = [[⟨'a', 7, 0⟩, ⟨'b', 7, 0⟩], [⟨'c', 7, 0⟩, ⟨'d', 7, 0⟩]] :=
  ⟨by decide, by decide, by decide, by decide,
    (lines_one_per_message cjkWidth (chatOf ["ab", "cd"] ⟨⟨0, 0⟩, ⟨10, 2⟩⟩ 0)
      (by decide) (by decide) (by decide) (by decide)).1.trans (by decide)⟩

/-- C8: for a pane of width `W ≥ 1` and a single message of `L ≥ 1` glyphs of width 1
without newline, the wrapping loop of `Chat.Buffer` yields exactly `⌈L / W⌉` lines, line
`j` (from 0) holds exactly the glyphs `j * W` up to `min ((j + 1) * W) L - 1`, and every
line but the last is exactly `W` columns wide. -/
theorem lines_greedy_fill (runeWidth : Char → Int) (c : Chat) (m : String) (W : Nat)
    (hitems : c.List.Items = [m]) (hdx : c.List.Inner.Dx = W) (hW : 1 ≤ W)
    (hL : 1 ≤ m.length) (hnl : '\n' ∉ m.toList)
    (hw : ∀ ch ∈ m.toList, runeWidth ch = 1) :
    (c.lines runeWidth).length = (m.length + W - 1) / W ∧
    (∀ j : Nat, j < (m.length + W - 1) / W →
      (c.lines runeWidth)[j]?
        = some (((Build m c.List.ItemFgColor c.List.ItemBgColor).drop (j * W)).take W)) ∧
    (∀ (j : Nat) (line : Line), j + 1 < (m.length + W - 1) / W → (c.lines runeWidth)[j]? = some line →
      lineWidth runeWidth line = W) := by
  have hcells : ∀ cell ∈ Build m c.List.ItemFgColor c.List.ItemBgColor,
      cell.Ch ≠ '\n' ∧ cell.Width runeWidth = 1 := by
    intro cell hc
    simp only [Build, List.mem_map] at hc
    obtain ⟨ch, hch, rfl⟩ := hc
    exact ⟨fun h => hnl (h ▸ hch), hw ch hch⟩
  have hlenB : (Build m c.List.ItemFgColor c.List.ItemBgColor).length = m.length := by
    simp only [Build, List.length_map]; rfl
  obtain ⟨k, hk, h1, h2, h3⟩ := wrapLoop_chunks runeWidth W hW
    (Build m c.List.ItemFgColor c.List.ItemBgColor) [] 0 hcells (by simp) (by simp)
    (by simp only [List.length_nil, zero_add, hlenB]; exact hL)
  simp only [List.length_nil, zero_add, hlenB, List.nil_append] at h1 h2 h3
  have hlines : c.lines runeWidth
      = wrapLoop runeWidth W (Build m c.List.ItemFgColor c.List.ItemBgColor) [] [] 0 := by
    simp only [Chat.lines, hitems, hdx, Join]
  have e1 : (k + 1) * W = k * W + W := by ring
  have hdiv : (m.length + W - 1) / W = k + 1 := by
    apply Nat.div_eq_of_lt_le
    · omega
    · have e2 : (k + 1 + 1) * W = k * W + W + W := by ring
      show m.length + W - 1 < (k + 1 + 1) * W
      omega
  rw [hdiv, hlines]
  refine ⟨hk, fun j hj => h3 j (by omega), ?_⟩
  intro j line hj hline
  rw [h3 j (by omega)] at hline
  have hl : line = ((Build m c.List.ItemFgColor c.List.ItemBgColor).drop (j * W)).take W :=
    (Option.some.inj hline).symm
  have hjk : (j + 1) * W ≤ k * W := Nat.mul_le_mul_right W (by omega)
  have e3 : (j + 1) * W = j * W + W := by ring
  have hlen : line.length = W := by
    rw [hl, List.length_take, List.length_drop, hlenB]
    omega
  rw [lineWidth_eq_length, hlen]
  intro cell hc
  rw [hl] at hc
  exact (hcells cell (List.mem_of_mem_drop (List.mem_of_mem_take hc))).2

/-- C8 at the message "abcd" in a pane of width 3: the lines "abc" and "d". -/
theorem lines_greedy_fill_witness :
    (chatOf ["abcd"] ⟨⟨0, 0⟩, ⟨3, 2⟩⟩ 0).List.Items = ["abcd"] ∧
    (chatOf ["abcd"] ⟨⟨0, 0⟩, ⟨3, 2⟩⟩ 0).List.Inner.Dx = (3 : Nat) ∧
    1 ≤ 3 ∧ 1 ≤ "abcd".length ∧ '\n' ∉ "abcd".toList ∧
    (∀ ch ∈ "abcd".toList, cjkWidth ch = 1) ∧
    ((chatOf ["abcd"] ⟨⟨0, 0⟩, ⟨3, 2⟩⟩ 0).lines cjkWidth).length = 2 ∧
    ((chatOf ["abcd"] ⟨⟨0, 0⟩, ⟨3, 2⟩⟩ 0).lines cjkWidth)[0]?
      = some [⟨'a', 7, 0⟩, ⟨'b', 7, 0⟩, ⟨'c', 7, 0⟩] ∧
    ((chatOf ["abcd"] ⟨⟨0, 0⟩, ⟨3, 2⟩⟩ 0).lines cjkWidth)[1]? = some [⟨'d', 7, 0⟩] :=
  have h := lines_greedy_fill cjkWidth (chatOf ["abcd"] ⟨⟨0, 0⟩, ⟨3, 2⟩⟩ 0) "abcd" 3
    rfl (by decide) (by decide) (by decide) (by decide) (by decide)
  ⟨rfl, by decide, by decide, by decide, by decide, by decide, h.1.trans (by decide),
    (h.2.1 0 (by decide)).trans (by decide), (h.2.1 1 (by decide)).trans (by decide)⟩

/-! ## Rendering: bottom anchoring, padding, density -/

/-- C2: for every sequence of lines, every rune width table with widths of 1 at least
(spec 4.1), and every offset that is not negative, the render loops of `Chat.Buffer`
end without panic and the pane row at distance `d` from the bottom row (`0 ≤ d < H`)
shows line `n - 1 - Offset - d` whenever that index is not negative: the cells of that
line from the left edge of the pane, left to right, then blank cells up to the right
edge. (Lines that fit the pane width and offsets up to `n - 1` are special cases, and
`1 ≤ H` follows from `d < H`.) -/
theorem render_bottom_anchored (runeWidth : Char → Int) (c : Chat) (lines : Lines)
    (buf0 : Buffer) (hw : ∀ ch, 1 ≤ runeWidth ch)
    (hoff0 : 0 ≤ c.Offset) :
    ∃ buf, c.render runeWidth lines buf0 = some buf ∧
      ∀ d k : Nat, (d : Int) < c.List.Inner.Dy →
        (k : Int) = (lines.length : Int) - 1 - c.Offset - d →
        ∃ line, lines[k]? = some line ∧
          ShowsLine runeWidth c buf (c.List.Inner.Max.Y - 1 - d) line := by
  obtain ⟨buf, hrun, _, hdrawn, _⟩ := render_spec runeWidth c lines buf0 hoff0
  refine ⟨buf, hrun, ?_⟩
  intro d k hd hk
  simp only [Rectangle.Dy] at hd
  have hidx : (lines.length : Int) - 1 - c.Offset
      - (c.List.Inner.Max.Y - 1 - (c.List.Inner.Max.Y - 1 - d)) = k := by omega
  obtain ⟨line, hline, _⟩ := hdrawn 0 (c.List.Inner.Max.Y - 1 - d) (by omega) (by omega)
    (by omega)
  rw [hidx, Int.toNat_ofNat] at hline
  refine ⟨line, hline, ?_⟩
  apply drawLine_shows runeWidth c line _ buf0 buf
    (fun cell _ => hw cell.Ch)
  intro x1
  obtain ⟨line2, hline2, hcell⟩ := hdrawn x1 (c.List.Inner.Max.Y - 1 - d) (by omega)
    (by omega) (by omega)
  rw [hidx, Int.toNat_ofNat, hline] at hline2
  cases hline2
  exact hcell

/-- C2 at five lines, height 3 and offset 0: rows 0, 1, 2 show lines 2, 3, 4. -/
theorem render_bottom_anchored_witness :
    (∀ ch, 1 ≤ cjkWidth ch) ∧ 0 ≤ fiveLineChat.Offset ∧
    (fiveLineChat.lines cjkWidth).length = 5 ∧
    ∃ buf, fiveLineChat.render cjkWidth (fiveLineChat.lines cjkWidth) Buffer.empty = some buf ∧
      ShowsLine cjkWidth fiveLineChat buf 0 [⟨'2', 7, 0⟩] ∧
      ShowsLine cjkWidth fiveLineChat buf 1 [⟨'3', 7, 0⟩] ∧
      ShowsLine cjkWidth fiveLineChat buf 2 [⟨'4', 7, 0⟩] := by
  obtain ⟨buf, hrun, h⟩ := render_bottom_anchored cjkWidth fiveLineChat
    (fiveLineChat.lines cjkWidth) Buffer.empty cjkWidth_pos (by decide)
  refine ⟨cjkWidth_pos, by decide, by decide, buf, hrun, ?_, ?_, ?_⟩
  · obtain ⟨l, hl, hs⟩ := h 2 2 (by decide) (by decide)
    have e : l = [⟨'2', 7, 0⟩] := Option.some.inj (hl.symm.trans (by decide))
    rw [e] at hs
    exact hs
  · obtain ⟨l, hl, hs⟩ := h 1 3 (by decide) (by decide)
    have e : l = [⟨'3', 7, 0⟩] := Option.some.inj (hl.symm.trans (by decide))
    rw [e] at hs
    exact hs
  · obtain ⟨l, hl, hs⟩ := h 0 4 (by decide) (by decide)
    have e : l = [⟨'4', 7, 0⟩] := Option.some.inj (hl.symm.trans (by decide))
    rw [e] at hs
    exact hs

/-- C9: for every sequence of `n` lines, every rune width table with widths of 1 at least
(spec 4.1), every offset that is not negative and `k = max 0 (n - Offset)` less than the
pane height `H`, the render loops of `Chat.Buffer` end without panic, the top `H - k`
pane rows consist of blank cells only, and the bottom `k` rows show the lines: the row at
distance `d < k` from the bottom row shows line `n - 1 - Offset - d`. -/
theorem render_sparse_padding (runeWidth : Char → Int) (c : Chat) (lines : Lines)
    (buf0 : Buffer) (hw : ∀ ch, 1 ≤ runeWidth ch) (hoff : 0 ≤ c.Offset) (k : Nat)
    (hk : (k : Int) = max 0 ((lines.length : Int) - c.Offset))
    (hkH : (k : Int) < c.List.Inner.Dy) :
    ∃ buf, c.render runeWidth lines buf0 = some buf ∧
      (∀ x y : Int, c.List.Inner.Min.X ≤ x → x < c.List.Inner.Max.X →
        c.List.Inner.Min.Y ≤ y → y < c.List.Inner.Max.Y - k →
        buf.CellMap x y = some c.blank) ∧
      (∀ d : Nat, d < k → ∃ (j : Nat) (l : Line),
        (j : Int) = (lines.length : Int) - 1 - c.Offset - d ∧ lines[j]? = some l ∧
        ShowsLine runeWidth c buf (c.List.Inner.Max.Y - 1 - d) l) := by
  obtain ⟨buf, hrun, _, hdrawn, hblank⟩ := render_spec runeWidth c lines buf0 hoff
  simp only [Rectangle.Dy] at hkH
  refine ⟨buf, hrun, ?_, ?_⟩
  · intro x y hx1 hx2 hy1 hy2
    rw [hblank x y hy1 (by omega) (by omega), if_pos ⟨hx1, hx2⟩]
  · intro d hd
    have hidx : (lines.length : Int) - 1 - c.Offset
        - (c.List.Inner.Max.Y - 1 - (c.List.Inner.Max.Y - 1 - d))
        = (((lines.length : Int) - 1 - c.Offset - d).toNat : Int) := by omega
    obtain ⟨l, hl, _⟩ := hdrawn 0 (c.List.Inner.Max.Y - 1 - d) (by omega) (by omega)
      (by omega)
    rw [hidx, Int.toNat_ofNat] at hl
    refine ⟨((lines.length : Int) - 1 - c.Offset - d).toNat, l, by omega, hl, ?_⟩
    apply drawLine_shows runeWidth c l _ buf0 buf (fun cell _ => hw cell.Ch)
    intro x1
    obtain ⟨l2, hl2, hcell⟩ := hdrawn x1 (c.List.Inner.Max.Y - 1 - d) (by omega)
      (by omega) (by omega)
    rw [hidx, Int.toNat_ofNat, hl] at hl2
    cases hl2
    exact hcell

/-- C9 at two lines, height 5 and offset 0: the rows 0, 1, 2 are blank, row 3 shows "ab"
and row 4 shows "cd". -/
theorem render_sparse_padding_witness :
    (∀ ch, 1 ≤ cjkWidth ch) ∧ 0 ≤ twoLineChat.Offset ∧
    ((2 : Nat) : Int) = max 0 (((twoLineChat.lines cjkWidth).length : Int) - twoLineChat.Offset) ∧
    ((2 : Nat) : Int) < twoLineChat.List.Inner.Dy ∧
    ∃ buf, twoLineChat.render cjkWidth (twoLineChat.lines cjkWidth) Buffer.empty = some buf ∧
      (∀ x y : Int, 0 ≤ x → x < 4 → 0 ≤ y → y < 3 → buf.CellMap x y = some ⟨' ', 7, 0⟩) ∧
      ShowsLine cjkWidth twoLineChat buf 3 [⟨'a', 7, 0⟩, ⟨'b', 7, 0⟩] ∧
      ShowsLine cjkWidth twoLineChat buf 4 [⟨'c', 7, 0⟩, ⟨'d', 7, 0⟩] := by
  obtain ⟨buf, hrun, hblank, h⟩ := render_sparse_padding cjkWidth twoLineChat
    (twoLineChat.lines cjkWidth) Buffer.empty cjkWidth_pos (by decide) 2 (by decide)
    (by decide)
  refine ⟨cjkWidth_pos, by decide, by decide, by decide, buf, hrun, ?_, ?_, ?_⟩
  · intro x y h1 h2 h3 h4
    exact hblank x y h1 h2 h3 h4
  · obtain ⟨j, l, hj, hl, hs⟩ := h 1 (by decide)
    have hj0 : j = 0 := by
      have : (j : Int) = 0 := hj.trans (by decide)
      omega
    subst hj0
    have e : l = [⟨'a', 7, 0⟩, ⟨'b', 7, 0⟩] := Option.some.inj (hl.symm.trans (by decide))
    rw [e] at hs
    exact hs
  · obtain ⟨j, l, hj, hl, hs⟩ := h 0 (by decide)
    have hj1 : j = 1 := by
      have : (j : Int) = 1 := hj.trans (by decide)
      omega
    subst hj1
    have e : l = [⟨'c', 7, 0⟩, ⟨'d', 7, 0⟩] := Option.some.inj (hl.symm.trans (by decide))
    rw [e] at hs
    exact hs

/-- C6, as stated, fails: in a pane 2 columns wide and 1 row high holding the wide glyph
"世", the render loops store the glyph at column 0 and nothing at column 1; and at the
offset -1 `Chat.Buffer` panics, so no pane cell is written. -/
theorem buffer_leaves_pane_cell_unwritten :
    ((chatOf ["世"] ⟨⟨0, 0⟩, ⟨2, 1⟩⟩ 0).Buffer cjkWidth Buffer.empty).map
        (fun buf => (buf.CellMap 0 0, buf.CellMap 1 0))
      = some (some ⟨'世', 7, 0⟩, none) ∧
    ((chatOf ["a"] ⟨⟨0, 0⟩, ⟨2, 1⟩⟩ (-1)).Buffer cjkWidth Buffer.empty).isNone = true := by
  decide

/-- C6, amended: for every pane, every message content whose glyphs all have display
width 1 (a newline inside a message apart) and every offset that is not negative, `Chat.Buffer` ends without panic and its
render loops store a cell at every position `(x, y)` of the pane, `Min.X ≤ x < Max.X`
and `Min.Y ≤ y < Max.Y` (the buffer the loops start from holds no cell here, so a cell
found is a cell written). -/
theorem buffer_writes_every_pane_cell (runeWidth : Char → Int) (c : Chat)
    (hoff : 0 ≤ c.Offset)
    (hw : ∀ m ∈ c.List.Items, ∀ ch ∈ m.toList, ch ≠ '\n' → runeWidth ch = 1) :
    ∃ buf, c.Buffer runeWidth Buffer.empty = some buf ∧
      ∀ x y : Int, c.List.Inner.Min.X ≤ x → x < c.List.Inner.Max.X →
        c.List.Inner.Min.Y ≤ y → y < c.List.Inner.Max.Y →
        ∃ cell, buf.CellMap x y = some cell := by
  obtain ⟨buf, hrun, _, hdrawn, hblank⟩ :=
    render_spec runeWidth c (c.lines runeWidth) Buffer.empty hoff
  refine ⟨buf, hrun, ?_⟩
  intro x y hx1 hx2 hy1 hy2
  by_cases hidx : 0 ≤ ((c.lines runeWidth).length : Int) - 1 - c.Offset
      - (c.List.Inner.Max.Y - 1 - y)
  · obtain ⟨l, hl, hcell⟩ := hdrawn x y hy1 hy2 hidx
    have hl1 : ∀ cell ∈ l, cell.Width runeWidth = 1 :=
      (lines_cells_width_one runeWidth c hw).2 l (List.getElem?_mem hl)
    rw [hcell, drawLine_CellMap]
    by_cases hfill : y = y ∧ c.List.Inner.Min.X + lineWidth runeWidth l ≤ x
        ∧ x < c.List.Inner.Max.X
    · rw [if_pos hfill]; exact ⟨_, rfl⟩
    · rw [if_neg hfill]
      rw [lineWidth_eq_length runeWidth l hl1] at hfill
      have hj : (x - c.List.Inner.Min.X).toNat < l.length := by omega
      have htake : lineWidth runeWidth (l.take (x - c.List.Inner.Min.X).toNat)
          = (x - c.List.Inner.Min.X).toNat := by
        rw [lineWidth_eq_length runeWidth _ (fun cell hc => hl1 cell (List.mem_of_mem_take hc)),
          List.length_take]
        congr 1
        omega
      have hget := setCells_get runeWidth y l c.List.Inner.Min.X Buffer.empty
        (fun cell hc => by rw [hl1 cell hc]) (x - c.List.Inner.Min.X).toNat
        l[(x - c.List.Inner.Min.X).toNat] (List.getElem?_eq_getElem hj)
      rw [htake] at hget
      have hx : c.List.Inner.Min.X + ((x - c.List.Inner.Min.X).toNat : Int) = x := by omega
      rw [hx] at hget
      exact ⟨_, hget⟩
  · rw [hblank x y hy1 hy2 (by omega), if_pos ⟨hx1, hx2⟩]
    exact ⟨_, rfl⟩

/-- C6, amended, at the messages "ab" and "cd" in a pane 4 columns wide and 5 rows
high. -/
theorem buffer_writes_every_pane_cell_witness :
    0 ≤ twoLineChat.Offset ∧
    (∀ m ∈ twoLineChat.List.Items, ∀ ch ∈ m.toList, ch ≠ '\n' → cjkWidth ch = 1) ∧
    ∃ buf, twoLineChat.Buffer cjkWidth Buffer.empty = some buf ∧
      ∀ x y : Int, 0 ≤ x → x < 4 → 0 ≤ y → y < 5 → ∃ cell, buf.CellMap x y = some cell := by
  obtain ⟨buf, hrun, h⟩ := buffer_writes_every_pane_cell cjkWidth twoLineChat (by decide)
    (by decide)
  exact ⟨by decide, by decide, buf, hrun, fun x y h1 h2 h3 h4 => h x y h1 h2 h3 h4⟩

/-! ## Scrolling -/

/-- C3, as stated, fails: `ScrollUp` on the fresh chat, which holds no message, leaves
the offset -1; and `ClearMessages` after twelve messages and a `ScrollUp` leaves the
offset 10 although the empty store wraps to a single line. -/
theorem offset_invariant_fails :
    Reachable id 7 0 "" ⟨⟨0, 0⟩, ⟨4, 3⟩⟩ freshChat.ScrollUp ∧
    freshChat.ScrollUp.Offset = -1 ∧
    Reachable id 7 0 "" ⟨⟨0, 0⟩, ⟨4, 3⟩⟩ twelveMessages.ScrollUp.ClearMessages ∧
    twelveMessages.ScrollUp.ClearMessages.Offset = 10 ∧
    max 0 (((twelveMessages.ScrollUp.ClearMessages.lines cjkWidth).length : Int) - 1) = 0 := by
  refine ⟨Reachable.scrollUp _ Reachable.fresh, by decide, ?_, by decide, by decide⟩
  apply Reachable.clearMessages
  apply Reachable.scrollUp
  simp only [twelveMessages, List.replicate, List.foldl]
  repeat apply Reachable.addMessage
  exact Reachable.fresh

/-- The offset of a guarded reachable state lies between 0 and the number of messages
less one. -/
theorem reachableGuarded_offset (unescape : String → String) (fg bg : Attribute)
    (label : String) (inner : Rectangle) (c : Chat)
    (h : ReachableGuarded unescape fg bg label inner c) :
    0 ≤ c.Offset ∧ c.Offset ≤ max 0 ((c.List.Items.length : Int) - 1) := by
  induction h with
  | fresh => simp [newChat]
  | addMessage c m _ ih =>
    simp only [Chat.AddMessage, List.length_append, List.length_cons, List.length_nil]
    push_cast
    omega
  | clearMessages c _ h0 _ => simp [Chat.ClearMessages, h0]
  | scrollUp c _ hne ih =>
    have hlen : 1 ≤ c.List.Items.length := List.length_pos.2 hne
    simp only [Chat.ScrollUp]
    split <;> simp only [] <;> omega
  | scrollDown c _ ih =>
    simp only [Chat.ScrollDown]
    split <;> simp only [] <;> omega
  | setInner c r _ ih => simpa [Chat.setInner] using ih

/-- C3, amended: in every state reachable from a freshly created chat (offset 0) by any
sequence of `AddMessage`, `ScrollDown`, `ScrollUp` on a store that holds a message and
`ClearMessages` at offset 0 (and changes of the pane geometry),
`0 ≤ Offset ≤ max 0 (totalWrappedLines - 1)`, where `totalWrappedLines` is the number of
lines the wrapping loop of `Chat.Buffer` produces for the current messages at the
current pane width. -/
theorem reachableGuarded_offset_bounds (runeWidth : Char → Int) (unescape : String → String)
    (fg bg : Attribute) (label : String) (inner : Rectangle) (c : Chat)
    (h : ReachableGuarded unescape fg bg label inner c) :
    0 ≤ c.Offset ∧ c.Offset ≤ max 0 (((c.lines runeWidth).length : Int) - 1) := by
  have h1 := reachableGuarded_offset unescape fg bg label inner c h
  have h2 := lines_length_ge runeWidth c
  omega

/-- C3, amended, at the state reached by adding the messages "ab" and "cd" and scrolling
up. -/
theorem reachableGuarded_offset_bounds_witness :
    ReachableGuarded id 7 0 "" ⟨⟨0, 0⟩, ⟨4, 3⟩⟩
      ((freshChat.AddMessage id "ab").AddMessage id "cd").ScrollUp ∧
    0 ≤ ((freshChat.AddMessage id "ab").AddMessage id "cd").ScrollUp.Offset ∧
    ((freshChat.AddMessage id "ab").AddMessage id "cd").ScrollUp.Offset
      ≤ max 0 (((((freshChat.AddMessage id "ab").AddMessage id "cd").ScrollUp.lines
          cjkWidth).length : Int) - 1) :=
  have hr : ReachableGuarded id 7 0 "" ⟨⟨0, 0⟩, ⟨4, 3⟩⟩
      ((freshChat.AddMessage id "ab").AddMessage id "cd").ScrollUp :=
    ReachableGuarded.scrollUp _
      (ReachableGuarded.addMessage _ _ (ReachableGuarded.addMessage _ _ ReachableGuarded.fresh))
      (by decide)
  ⟨hr, reachableGuarded_offset_bounds cjkWidth id 7 0 "" ⟨⟨0, 0⟩, ⟨4, 3⟩⟩ _ hr⟩

/-- C4 fails on the code: the fresh chat holds no message, `ScrollUp` leaves its offset
-1, and `Chat.Buffer` then reads `lines[1]` of the single line and panics. -/
theorem buffer_panics_after_scrollUp :
    Reachable id 7 0 "" ⟨⟨0, 0⟩, ⟨4, 3⟩⟩ freshChat.ScrollUp ∧
    (freshChat.ScrollUp.lines cjkWidth).length = 1 ∧
    ((freshChat.ScrollUp.lines cjkWidth).length : Int) - 1 - freshChat.ScrollUp.Offset = 1 ∧
    (freshChat.ScrollUp.Buffer cjkWidth Buffer.empty).isNone = true :=
  ⟨Reachable.scrollUp _ Reachable.fresh, by decide, by decide, by decide⟩

/-- C5, as stated, fails: with the single message "abcdef" wrapped into two lines of a
pane of width 3, `ScrollUp` at offset 0 leaves the offset 0, not
`min (0 + 10) (max 0 (2 - 1)) = 1`; and with no message it leaves the offset -1, not
`min (0 + 10) (max 0 (1 - 1)) = 0`. -/
theorem scrollUp_not_clamped_by_lines :
    ((chatOf ["abcdef"] ⟨⟨0, 0⟩, ⟨3, 2⟩⟩ 0).lines cjkWidth).length = 2 ∧
    (chatOf ["abcdef"] ⟨⟨0, 0⟩, ⟨3, 2⟩⟩ 0).ScrollUp.Offset = 0 ∧
    (chatOf ["abcdef"] ⟨⟨0, 0⟩, ⟨3, 2⟩⟩ 0).ScrollUp.Offset
      ≠ min ((chatOf ["abcdef"] ⟨⟨0, 0⟩, ⟨3, 2⟩⟩ 0).Offset + 10)
          (max 0 ((((chatOf ["abcdef"] ⟨⟨0, 0⟩, ⟨3, 2⟩⟩ 0).lines cjkWidth).length : Int) - 1)) ∧
    freshChat.ScrollUp.Offset
      ≠ min (freshChat.Offset + 10)
          (max 0 (((freshChat.lines cjkWidth).length : Int) - 1)) := by
  decide

/-- C5, amended: in every state whose store holds a message, `ScrollUp` sets the offset
to `min (Offset + 10) (max 0 (messageCount - 1))`, where `messageCount` is the number of
stored messages `len(List.Items)`, and it leaves the messages, as the whole termui list,
unchanged. -/
theorem scrollUp_offset (c : Chat) (hne : c.List.Items ≠ []) :
    c.ScrollUp.Offset = min (c.Offset + 10) (max 0 ((c.List.Items.length : Int) - 1)) ∧
    c.ScrollUp.List = c.List := by
  have hlen : 1 ≤ c.List.Items.length := List.length_pos.2 hne
  simp only [Chat.ScrollUp]
  split
  · exact ⟨by simp only []; omega, rfl⟩
  · exact ⟨by simp only []; omega, rfl⟩

/-- C5, amended, at the single message "abcdef" and offset 0. -/
theorem scrollUp_offset_witness :
    (chatOf ["abcdef"] ⟨⟨0, 0⟩, ⟨3, 2⟩⟩ 0).List.Items ≠ [] ∧
    (chatOf ["abcdef"] ⟨⟨0, 0⟩, ⟨3, 2⟩⟩ 0).ScrollUp.Offset = 0 ∧
    (chatOf ["abcdef"] ⟨⟨0, 0⟩, ⟨3, 2⟩⟩ 0).ScrollUp.List
      = (chatOf ["abcdef"] ⟨⟨0, 0⟩, ⟨3, 2⟩⟩ 0).List :=
  have h := scrollUp_offset (chatOf ["abcdef"] ⟨⟨0, 0⟩, ⟨3, 2⟩⟩ 0) (by decide)
  ⟨by decide, h.1.trans (by decide), h.2⟩

/-- `ScrollUp` leaves the offset at the number of messages less one at most, and the
termui list as it is. -/
theorem scrollUp_le (c : Chat) :
    c.ScrollUp.Offset ≤ (c.List.Items.length : Int) - 1 ∧ c.ScrollUp.List = c.List := by
  simp only [Chat.ScrollUp]
  split
  · exact ⟨by simp only []; omega, rfl⟩
  · exact ⟨by simp only []; omega, rfl⟩

/-- C10: for every message store and every pane width, starting from offset 0 and
applying `ScrollUp` any number of times, the store is unchanged and the offset never
exceeds `totalLines - 1`, where `totalLines` is the number of lines the wrapping loop of
`Chat.Buffer` produces for the store at that width. -/
theorem scrollUp_iterate_le_lines (runeWidth : Char → Int) (c : Chat) (h0 : c.Offset = 0)
    (n : Nat) :
    (Chat.ScrollUp^[n] c).List = c.List ∧
    (Chat.ScrollUp^[n] c).Offset ≤ ((c.lines runeWidth).length : Int) - 1 := by
  have hlen := lines_length_ge runeWidth c
  induction n with
  | zero =>
    refine ⟨rfl, ?_⟩
    simp only [Function.iterate_zero, id_eq, h0]
    omega
  | succ n ih =>
    rw [Function.iterate_succ_apply']
    have h := scrollUp_le (Chat.ScrollUp^[n] c)
    rw [ih.1] at h
    exact ⟨h.2, by omega⟩

/-- C10 at three messages in a pane of width 4, after three `ScrollUp`: the offset is
2. -/
theorem scrollUp_iterate_le_lines_witness :
    (chatOf ["ab", "cd", "ef"] ⟨⟨0, 0⟩, ⟨4, 3⟩⟩ 0).Offset = 0 ∧
    (Chat.ScrollUp^[3] (chatOf ["ab", "cd", "ef"] ⟨⟨0, 0⟩, ⟨4, 3⟩⟩ 0)).Offset = 2 ∧
    (Chat.ScrollUp^[3] (chatOf ["ab", "cd", "ef"] ⟨⟨0, 0⟩, ⟨4, 3⟩⟩ 0)).Offset
      ≤ (((chatOf ["ab", "cd", "ef"] ⟨⟨0, 0⟩, ⟨4, 3⟩⟩ 0).lines cjkWidth).length : Int) - 1 :=
  ⟨rfl, by decide,
    (scrollUp_iterate_le_lines cjkWidth (chatOf ["ab", "cd", "ef"] ⟨⟨0, 0⟩, ⟨4, 3⟩⟩ 0) rfl 3).2⟩

/-! ## `ScrollDown`, the message store and the border label -/

/-- C11: in every state `ScrollDown` sets the offset to `max (Offset - 10) 0` and leaves
the messages, as the whole termui list, unchanged; at offset 0 it leaves the offset at
0. -/
theorem scrollDown_offset (c : Chat) :
    c.ScrollDown.Offset = max (c.Offset - 10) 0 ∧
    c.ScrollDown.List = c.List ∧
    ({ c with Offset := 0 } : Chat).ScrollDown.Offset = 0 := by
  refine ⟨?_, ?_, by simp [Chat.ScrollDown]⟩
  · simp only [Chat.ScrollDown]
    split <;> simp only [] <;> omega
  · simp only [Chat.ScrollDown]
    split <;> rfl

/-- C15: in every state `AddMessage` makes the store the previous store followed by the
decoded message alone: the earlier messages keep their content and order, the length
grows by one, and the offset, the colours, the label and the pane are unchanged. -/
theorem addMessage_appends (unescape : String → String) (c : Chat) (message : String) :
    (c.AddMessage unescape message).List.Items = c.List.Items ++ [unescape message] ∧
    (c.AddMessage unescape message).List.Items.length = c.List.Items.length + 1 ∧
    (∀ i : Nat, i < c.List.Items.length →
      (c.AddMessage unescape message).List.Items[i]? = c.List.Items[i]?) ∧
    (c.AddMessage unescape message).List.Items[c.List.Items.length]?
      = some (unescape message) ∧
    (c.AddMessage unescape message).Offset = c.Offset ∧
    (c.AddMessage unescape message).List.ItemFgColor = c.List.ItemFgColor ∧
    (c.AddMessage unescape message).List.ItemBgColor = c.List.ItemBgColor ∧
    (c.AddMessage unescape message).List.BorderLabel = c.List.BorderLabel ∧
    (c.AddMessage unescape message).List.Inner = c.List.Inner := by
  refine ⟨rfl, by simp [Chat.AddMessage], ?_, by simp [Chat.AddMessage], rfl, rfl, rfl, rfl,
    rfl⟩
  intro i hi
  simp only [Chat.AddMessage]
  rw [List.getElem?_append_left hi]

/-- C16: for every channel `SetBorderLabel` sets the label of the pane to the name of the
channel alone when the topic is the empty string and to the name, " - " and the topic
otherwise; it changes neither the messages nor the offset (nor the colours or the
pane). -/
theorem setBorderLabel_label (c : Chat) (channel : Channel) :
    (channel.Topic = "" → (c.SetBorderLabel channel).List.BorderLabel = channel.Name) ∧
    (channel.Topic ≠ "" →
      (c.SetBorderLabel channel).List.BorderLabel
        = channel.Name ++ " - " ++ channel.Topic) ∧
    (c.SetBorderLabel channel).List.Items = c.List.Items ∧
    (c.SetBorderLabel channel).Offset = c.Offset ∧
    (c.SetBorderLabel channel).List.ItemFgColor = c.List.ItemFgColor ∧
    (c.SetBorderLabel channel).List.ItemBgColor = c.List.ItemBgColor ∧
    (c.SetBorderLabel channel).List.Inner = c.List.Inner := by
  refine ⟨?_, ?_, rfl, rfl, rfl, rfl, rfl⟩
  · intro h
    simp [Chat.SetBorderLabel, h]
  · intro h
    simp [Chat.SetBorderLabel, h]

/-! ## `NewConfig` -/

/-- C20: `NewConfig` always returns the error "couldn't find 'slack_token' parameter"
together with the config whose `SlackToken` is empty, `Theme` is "light", `SidebarWidth`
is 1 and `MainWidth` is 11 (not the 1 of the reassignment), and it leaves the global
colour map as it found it: the return of line 37 is taken, so neither the check of the
sidebar width, nor the reassignment of `MainWidth`, nor the assignment of the colour map
is reached. -/
theorem NewConfig_returns_token_error (black white blue yellow : Attribute)
    (colorMap : ColorMap) :
    (NewConfig black white blue yellow colorMap).err
      = some "couldn't find 'slack_token' parameter" ∧
    (NewConfig black white blue yellow colorMap).cfg.SlackToken = "" ∧
    (NewConfig black white blue yellow colorMap).cfg.Theme = "light" ∧
    (NewConfig black white blue yellow colorMap).cfg.SidebarWidth = 1 ∧
    (NewConfig black white blue yellow colorMap).cfg.MainWidth = 11 ∧
    (NewConfig black white blue yellow colorMap).cfg.KeyMap
      = [("command", [("q", "quit")]), ("insert", [])] ∧
    (NewConfig black white blue yellow colorMap).colorMap = colorMap :=
  ⟨rfl, rfl, rfl, rfl, rfl, rfl, rfl⟩

/-! ## Degenerate width, cleared store -/

/-- In a pane of width 0 or less, with runes of width 1 at least, every cell other than a
newline closes the current line: the loop gives one line more than it reads cells, and
every line it closes after the current one holds one cell at most. -/
theorem wrapLoop_degenerate (runeWidth : Char → Int) (dx : Int) (hdx : dx ≤ 0)
    (hw : ∀ ch, 1 ≤ runeWidth ch) (cells : List Cell) :
    ∀ (line : Line) (x : Int), 0 ≤ x →
      (wrapLoop runeWidth dx cells [] line x).length = cells.length + 1 ∧
      ∀ l ∈ wrapLoop runeWidth dx cells [] line x, l = line ∨ l.length ≤ 1 := by
  induction cells with
  | nil =>
    intro line x _
    simp [wrapLoop]
  | cons c rest ih =>
    intro line x hx
    by_cases hn : c.Ch = '\n'
    · rw [wrapLoop_newline _ _ _ _ _ _ hn]
      obtain ⟨h1, h2⟩ := ih [] 0 (le_refl _)
      refine ⟨by simp [h1], ?_⟩
      intro l hl
      rcases List.mem_cons.1 hl with h | h
      · exact Or.inl h
      · rcases h2 l h with h3 | h3
        · right; rw [h3]; simp
        · exact Or.inr h3
    · have hwc : 1 ≤ c.Width runeWidth := hw c.Ch
      have hb : x + c.Width runeWidth > dx := by omega
      rw [wrapLoop_break _ _ _ _ _ _ hn hb]
      obtain ⟨h1, h2⟩ := ih [c] 1 (by omega)
      refine ⟨by simp [h1], ?_⟩
      intro l hl
      rcases List.mem_cons.1 hl with h | h
      · exact Or.inl h
      · rcases h2 l h with h3 | h3
        · right; rw [h3]; simp
        · exact Or.inr h3

/-- C12, as stated, fails: in a pane of width 0 the message "a" wraps to two lines, an
empty one and the line "a", and no message at all wraps to one empty line. -/
theorem lines_degenerate_width_not_empty :
    (chatOf ["a"] ⟨⟨0, 0⟩, ⟨0, 1⟩⟩ 0).List.Inner.Dx ≤ 0 ∧
    (chatOf ["a"] ⟨⟨0, 0⟩, ⟨0, 1⟩⟩ 0).lines cjkWidth = [[], [⟨'a', 7, 0⟩]] ∧
    (chatOf [] ⟨⟨0, 0⟩, ⟨0, 1⟩⟩ 0).lines cjkWidth = [[]] := by
  decide

/-- C12, amended: for every message list, wrapping with a pane width `W ≤ 0` (and runes of
width 1 at least, spec 4.1) yields a sequence of lines that is never empty: it has one
line more than the joined messages have cells, newline cells included, and every line
holds one cell at most. -/
theorem lines_degenerate_width (runeWidth : Char → Int) (c : Chat)
    (hw : ∀ ch, 1 ≤ runeWidth ch) (hdx : c.List.Inner.Dx ≤ 0) :
    (c.lines runeWidth).length
      = (Build (Join c.List.Items "\n") c.List.ItemFgColor c.List.ItemBgColor).length + 1 ∧
    ∀ l ∈ c.lines runeWidth, l.length ≤ 1 := by
  obtain ⟨h1, h2⟩ := wrapLoop_degenerate runeWidth _ hdx hw
    (Build (Join c.List.Items "\n") c.List.ItemFgColor c.List.ItemBgColor) [] 0 (le_refl _)
  refine ⟨h1, ?_⟩
  intro l hl
  rcases h2 l hl with h | h
  · rw [h]; simp
  · exact h

/-- C12, amended, at the messages "ab" and "c" in a pane of width 0: five lines. -/
theorem lines_degenerate_width_witness :
    (∀ ch, 1 ≤ cjkWidth ch) ∧
    (chatOf ["ab", "c"] ⟨⟨0, 0⟩, ⟨0, 1⟩⟩ 0).List.Inner.Dx ≤ 0 ∧
    ((chatOf ["ab", "c"] ⟨⟨0, 0⟩, ⟨0, 1⟩⟩ 0).lines cjkWidth).length = 5 ∧
    ∀ l ∈ (chatOf ["ab", "c"] ⟨⟨0, 0⟩, ⟨0, 1⟩⟩ 0).lines cjkWidth, l.length ≤ 1 :=
  have h := lines_degenerate_width cjkWidth (chatOf ["ab", "c"] ⟨⟨0, 0⟩, ⟨0, 1⟩⟩ 0)
    cjkWidth_pos (by decide)
  ⟨cjkWidth_pos, by decide, h.1.trans (by decide), h.2⟩

/-- C13, as stated, fails: after `ClearMessages` the wrapping loop yields one line, not
none. -/
theorem lines_after_clear_not_empty :
    twelveMessages.ClearMessages.List.Items = [] ∧
    twelveMessages.ClearMessages.lines cjkWidth ≠ [] ∧
    (twelveMessages.ClearMessages.lines cjkWidth).length = 1 := by
  decide

/-- C13, amended: after `ClearMessages`, for every pane width, the store is empty and
wrapping it yields exactly one line, which is empty (the loop closes the current line
when the cells end, chat.go 75). -/
theorem lines_after_clear (runeWidth : Char → Int) (c : Chat) :
    c.ClearMessages.List.Items = [] ∧ c.ClearMessages.lines runeWidth = [[]] :=
  ⟨rfl, rfl⟩

/-- C14: for every prior message content, every pane and every offset that is not
negative, after `ClearMessages` the method `Chat.Buffer` ends without panic and every
cell of the pane is the blank cell, ' ' with the foreground and background of the
items. -/
theorem buffer_after_clear_blank (runeWidth : Char → Int) (c : Chat) (listBuffer : Buffer)
    (hoff : 0 ≤ c.Offset) :
    ∃ buf, c.ClearMessages.Buffer runeWidth listBuffer = some buf ∧
      ∀ x y : Int, c.List.Inner.Min.X ≤ x → x < c.List.Inner.Max.X →
        c.List.Inner.Min.Y ≤ y → y < c.List.Inner.Max.Y →
        buf.CellMap x y = some ⟨' ', c.List.ItemFgColor, c.List.ItemBgColor⟩ := by
  obtain ⟨buf, hrun, _, hdrawn, hblank⟩ :=
    render_spec runeWidth c.ClearMessages (c.ClearMessages.lines runeWidth) listBuffer hoff
  refine ⟨buf, hrun, ?_⟩
  intro x y hx1 hx2 hy1 hy2
  by_cases hidx : 0 ≤ ((c.ClearMessages.lines runeWidth).length : Int) - 1
      - c.ClearMessages.Offset - (c.ClearMessages.List.Inner.Max.Y - 1 - y)
  · obtain ⟨l, hl, hcell⟩ := hdrawn x y hy1 hy2 hidx
    have hlines : c.ClearMessages.lines runeWidth = [[]] := rfl
    have hmem : l ∈ c.ClearMessages.lines runeWidth := List.getElem?_mem hl
    rw [hlines, List.mem_singleton] at hmem
    have hfill : y = y ∧ c.ClearMessages.List.Inner.Min.X + lineWidth runeWidth [] ≤ x
        ∧ x < c.ClearMessages.List.Inner.Max.X :=
      ⟨rfl, (by show c.List.Inner.Min.X + 0 ≤ x; omega), hx2⟩
    rw [hcell, drawLine_CellMap, hmem, if_pos hfill]
    rfl
  · rw [hblank x y hy1 hy2 (by omega), if_pos ⟨hx1, hx2⟩]
    rfl

/-- C14 at the twelve messages after a `ScrollUp` (offset 10), then cleared. -/
theorem buffer_after_clear_blank_witness :
    0 ≤ twelveMessages.ScrollUp.Offset ∧
    ∃ buf, twelveMessages.ScrollUp.ClearMessages.Buffer cjkWidth Buffer.empty = some buf ∧
      ∀ x y : Int, 0 ≤ x → x < 4 → 0 ≤ y → y < 3 → buf.CellMap x y = some ⟨' ', 7, 0⟩ := by
  obtain ⟨buf, hrun, h⟩ := buffer_after_clear_blank cjkWidth twelveMessages.ScrollUp
    Buffer.empty (by decide)
  exact ⟨by decide, buf, hrun, fun x y h1 h2 h3 h4 => h x y h1 h2 h3 h4⟩

/-! ## Content preservation, stability under append, no write outside the pane -/

/-- The cells of the lines the wrapping loop returns, in order: those of the closed
lines, those of the current line, then the cells still to read other than newlines. -/
theorem wrapLoop_flatten (runeWidth : Char → Int) (dx : Int) (cells : List Cell) :
    ∀ (lines : List Line) (line : Line) (x : Int),
      (wrapLoop runeWidth dx cells lines line x).flatten
        = lines.flatten ++ line ++ cells.filter (fun cell => cell.Ch != '\n') := by
  induction cells with
  | nil => intro lines line x; simp [wrapLoop]
  | cons c rest ih =>
    intro lines line x
    simp only [wrapLoop]
    by_cases hn : c.Ch = '\n'
    · rw [if_pos hn, ih, List.filter_cons_of_neg (by simp [hn])]
      simp
    · rw [if_neg hn, ih, List.filter_cons_of_pos (by simp [hn])]
      split <;> simp

/-- C17: for every message list and every pane width, 0 and negative widths included,
the cells of all wrapped lines, concatenated in order, are exactly the cells of the
messages joined by newlines with the newline cells removed: the wrapping loop drops,
duplicates or reorders no cell. -/
theorem lines_flatten (runeWidth : Char → Int) (c : Chat) :
    (c.lines runeWidth).flatten
      = (Build (Join c.List.Items "\n") c.List.ItemFgColor c.List.ItemBgColor).filter
          (fun cell => cell.Ch != '\n') := by
  simp only [Chat.lines, wrapLoop_flatten]
  simp

/-- The wrapping loop over cells, a newline cell and more cells: the lines of the first
cells, then the lines of the other cells wrapped from a fresh state. -/
theorem wrapLoop_append_newline (runeWidth : Char → Int) (dx : Int) (nl : Cell)
    (hnl : nl.Ch = '\n') (cells2 : List Cell) (cells1 : List Cell) :
    ∀ (lines : List Line) (line : Line) (x : Int),
      wrapLoop runeWidth dx (cells1 ++ nl :: cells2) lines line x
        = wrapLoop runeWidth dx cells1 lines line x
          ++ wrapLoop runeWidth dx cells2 [] [] 0 := by
  induction cells1 with
  | nil =>
    intro lines line x
    simp only [List.nil_append, wrapLoop, hnl, if_true]
    rw [wrapLoop_append]
  | cons c rest ih =>
    intro lines line x
    rw [List.cons_append]
    simp only [wrapLoop]
    by_cases hn : c.Ch = '\n'
    · rw [if_pos hn, if_pos hn]
      exact ih _ _ _
    · rw [if_neg hn, if_neg hn]
      exact ih _ _ _

/-- Joining a non-empty list of strings with one more string at the end. -/
theorem Join_append_singleton (items : List String) (hne : items ≠ []) (m sep : String) :
    Join (items ++ [m]) sep = Join items sep ++ sep ++ m := by
  induction items with
  | nil => exact absurd rfl hne
  | cons a rest ih =>
    cases rest with
    | nil => simp [Join]
    | cons b rest =>
      have h : Join (b :: (rest ++ [m])) sep = Join (b :: rest) sep ++ sep ++ m :=
        ih (by simp)
      show a ++ sep ++ Join (b :: (rest ++ [m])) sep
        = a ++ sep ++ Join (b :: rest) sep ++ sep ++ m
      rw [h]
      simp [String.append_assoc]

/-- C18: for every chat whose store is not empty, every message and every pane width,
with one cell built for each character, the lines of the store with the message added
are the lines of the store followed by the lines of the message wrapped alone:
appending a message changes none of the lines produced for the earlier messages. -/
theorem lines_addMessage (runeWidth : Char → Int) (unescape : String → String) (c : Chat)
    (message : String) (hne : c.List.Items ≠ []) :
    (c.AddMessage unescape message).lines runeWidth
      = c.lines runeWidth ++ (c.ClearMessages.AddMessage unescape message).lines runeWidth := by
  simp only [Chat.lines, Chat.AddMessage, Chat.ClearMessages, List.nil_append, Join]
  rw [Join_append_singleton _ hne]
  have hb : Build (Join c.List.Items "\n" ++ "\n" ++ unescape message) c.List.ItemFgColor
      c.List.ItemBgColor
      = Build (Join c.List.Items "\n") c.List.ItemFgColor c.List.ItemBgColor
        ++ ⟨'\n', c.List.ItemFgColor, c.List.ItemBgColor⟩
          :: Build (unescape message) c.List.ItemFgColor c.List.ItemBgColor := by
    simp [Build, String.toList, String.data_append]
  rw [hb, wrapLoop_append_newline runeWidth _ _ rfl]

/-- C18 at the store "ab", "cd" and the message "efgh" in a pane of width 3. -/
theorem lines_addMessage_witness :
    (chatOf ["ab", "cd"] ⟨⟨0, 0⟩, ⟨3, 4⟩⟩ 0).List.Items ≠ [] ∧
    ((chatOf ["ab", "cd"] ⟨⟨0, 0⟩, ⟨3, 4⟩⟩ 0).AddMessage id "efgh").lines cjkWidth
      = (chatOf ["ab", "cd"] ⟨⟨0, 0⟩, ⟨3, 4⟩⟩ 0).lines cjkWidth
        ++ [[⟨'e', 7, 0⟩, ⟨'f', 7, 0⟩, ⟨'g', 7, 0⟩], [⟨'h', 7, 0⟩]] :=
  ⟨by decide,
    (lines_addMessage cjkWidth id (chatOf ["ab", "cd"] ⟨⟨0, 0⟩, ⟨3, 4⟩⟩ 0) "efgh"
      (by decide)).trans (by decide)⟩

/-- C19: for every pane at least one column wide, every message content of glyphs of
width 1 (a newline inside a message apart) and every offset that is not negative,
`Chat.Buffer` ends without panic and every buffer cell outside the inner bounds of the
pane is as `List.Buffer` produced it: the render loops write at positions `(x, y)` with
`Min.X ≤ x < Max.X` and `Min.Y ≤ y < Max.Y` only. -/
theorem buffer_outside_pane_unchanged (runeWidth : Char → Int) (c : Chat)
    (listBuffer : Buffer) (hdx : 1 ≤ c.List.Inner.Dx) (hoff : 0 ≤ c.Offset)
    (hw : ∀ m ∈ c.List.Items, ∀ ch ∈ m.toList, ch ≠ '\n' → runeWidth ch = 1) :
    ∃ buf, c.Buffer runeWidth listBuffer = some buf ∧
      ∀ x y : Int,
        ¬ (c.List.Inner.Min.X ≤ x ∧ x < c.List.Inner.Max.X
            ∧ c.List.Inner.Min.Y ≤ y ∧ y < c.List.Inner.Max.Y) →
        buf.CellMap x y = listBuffer.CellMap x y := by
  obtain ⟨buf, hrun, hout, hdrawn, hblank⟩ :=
    render_spec runeWidth c (c.lines runeWidth) listBuffer hoff
  refine ⟨buf, hrun, ?_⟩
  intro x y hxy
  by_cases hy : c.List.Inner.Min.Y ≤ y ∧ y < c.List.Inner.Max.Y
  · have hx : x < c.List.Inner.Min.X ∨ c.List.Inner.Max.X ≤ x := by omega
    by_cases hidx : 0 ≤ ((c.lines runeWidth).length : Int) - 1 - c.Offset
        - (c.List.Inner.Max.Y - 1 - y)
    · obtain ⟨l, hl, hcell⟩ := hdrawn x y hy.1 hy.2 hidx
      have hmem : l ∈ c.lines runeWidth := List.getElem?_mem hl
      obtain ⟨hcells, hlines⟩ := lines_cells_width_one runeWidth c hw
      have hl1 : ∀ cell ∈ l, cell.Width runeWidth = 1 := hlines l hmem
      have hlen : (l.length : Int) ≤ c.List.Inner.Dx :=
        wrapLoop_length_le runeWidth _ hdx _ [] 0 hcells (by simp) (by omega) l hmem
      have hwidth := lineWidth_eq_length runeWidth l hl1
      simp only [Rectangle.Dx] at hlen
      rw [hcell, drawLine_CellMap, if_neg (by omega),
        setCells_outside runeWidth y l _ _ x y (fun cell hc => by rw [hl1 cell hc])
          (by omega)]
    · rw [hblank x y hy.1 hy.2 (by omega), if_neg (by omega)]
  · exact hout x y (by omega)

/-- C19 at the messages "ab" and "cd" in a pane 4 columns wide and 5 rows high. -/
theorem buffer_outside_pane_unchanged_witness :
    1 ≤ twoLineChat.List.Inner.Dx ∧ 0 ≤ twoLineChat.Offset ∧
    (∀ m ∈ twoLineChat.List.Items, ∀ ch ∈ m.toList, ch ≠ '\n' → cjkWidth ch = 1) ∧
    ∃ buf, twoLineChat.Buffer cjkWidth Buffer.empty = some buf ∧
      ∀ x y : Int, ¬ (0 ≤ x ∧ x < 4 ∧ 0 ≤ y ∧ y < 5) → buf.CellMap x y = none := by
  obtain ⟨buf, hrun, h⟩ := buffer_outside_pane_unchanged cjkWidth twoLineChat Buffer.empty
    (by decide) (by decide) (by decide)
  exact ⟨by decide, by decide, by decide, buf, hrun, fun x y hxy => h x y hxy⟩

end SlackTerm
